import Mathlib

/-!
Verification of the macky_xml library (src/lib.rs): a recursive-descent XML
subset parser built on nom, a tree data model, whitespace normalization and a
query layer.  The Rust source is shallowly embedded: input slices become
`List Char`, each nom parser becomes a function `List Char → PResult α`, where
`PResult` distinguishes success (remaining input plus value) from nom's soft
error (`Err::Error`, ordered choice may continue), nom's failure
(`Err::Failure`, committed abort), a Rust panic (`crash`), and exhaustion of
the recursion fuel used to express the source's unbounded recursion
(`nofuel`; with enough fuel it never occurs).
-/

namespace Macky

/-- Input slices of the Rust parser, `&str`, as lists of characters. -/
abbrev Str := List Char

/-- Outcome of a nom parser: `ok rest val` for `Ok((rest, val))`; `err soft`
for `Err(Error(..))`; `err fatal` for `Err(Failure(..))`; `err crash` for a
Rust panic; `err nofuel` when the modelling fuel runs out. -/
inductive PError where
  | soft
  | fatal
  | crash
  | nofuel
deriving Repr, DecidableEq

/-- Result of running an embedded parser on an input slice. -/
inductive PResult (α : Type) where
  | ok (rest : Str) (val : α)
  | err (e : PError)
deriving Repr

instance {α : Type} [DecidableEq α] : DecidableEq (PResult α) := fun a b =>
  match a, b with
  | .ok r v, .ok r' v' =>
    if h : r = r' ∧ v = v' then .isTrue (by rw [h.1, h.2])
    else .isFalse (by intro hc; cases hc; exact h ⟨rfl, rfl⟩)
  | .ok _ _, .err _ => .isFalse (by intro hc; cases hc)
  | .err _, .ok _ _ => .isFalse (by intro hc; cases hc)
  | .err e, .err e' =>
    if h : e = e' then .isTrue (by rw [h])
    else .isFalse (by intro hc; cases hc; exact h rfl)

/-- Sequencing of parser steps; models Rust's `?` operator on `IResult`:
errors (of every kind) propagate unchanged. -/
def PResult.bind {α β : Type} (r : PResult α) (f : Str → α → PResult β) : PResult β :=
  match r with
  | .ok rest v => f rest v
  | .err e => .err e

/-- Prefix test on character lists (the slice comparison `tag` performs). -/
def isPref : Str → Str → Bool
  | [], _ => true
  | _ :: _, [] => false
  | c :: cs, d :: ds => c == d && isPref cs ds

/-- nom's `tag`: consume the literal `t` or fail softly. -/
def tag (t : Str) (input : Str) : PResult Str :=
  if isPref t input then .ok (input.drop t.length) t else .err .soft

/-- nom's `take_while`: longest (possibly empty) prefix satisfying `p`. -/
def take_while (p : Char → Bool) (input : Str) : PResult Str :=
  .ok (input.dropWhile p) (input.takeWhile p)

/-- nom's `take_while1`: like `take_while` but a soft error on an empty match. -/
def take_while1 (p : Char → Bool) (input : Str) : PResult Str :=
  match input.takeWhile p with
  | [] => .err .soft
  | r => .ok (input.dropWhile p) r

/-- nom's `take_until t`: everything before the first occurrence of `t`
(which is left unconsumed); a soft error when `t` never occurs. -/
def take_until (t : Str) : Str → PResult Str
  | [] => if isPref t [] then .ok [] [] else .err .soft
  | c :: cs =>
    if isPref t (c :: cs) then .ok (c :: cs) []
    else
      match take_until t cs with
      | .ok rest data => .ok rest (c :: data)
      | .err e => .err e

/-- nom's binary `alt`: run `f`; on a soft error retry with `g`; propagate
success, failure, crash and fuel exhaustion unchanged. -/
def alt {α : Type} (f g : Str → PResult α) (input : Str) : PResult α :=
  match f input with
  | .err .soft => g input
  | r => r

/-- Rust `char::is_whitespace`: the Unicode `White_Space` code points. -/
def isWhitespaceChar (c : Char) : Bool :=
  [0x09, 0x0A, 0x0B, 0x0C, 0x0D, 0x20, 0x85, 0xA0, 0x1680,
   0x2000, 0x2001, 0x2002, 0x2003, 0x2004, 0x2005, 0x2006, 0x2007,
   0x2008, 0x2009, 0x200A, 0x2028, 0x2029, 0x202F, 0x205F, 0x3000].contains c.toNat

/-- The `ws!` macro: skip `take_while(char::is_whitespace)`, which always
succeeds, so it is a plain function on the input slice. -/
def ws (input : Str) : Str := input.dropWhile isWhitespaceChar

/-- Rust `char::to_ascii_lowercase`: shift only ASCII `A`–`Z` down by 32. -/
def toAsciiLower (c : Char) : Char :=
  if 65 ≤ c.toNat ∧ c.toNat ≤ 90 then Char.ofNat (c.toNat + 32) else c

/-- Rust `str::to_ascii_lowercase` on a slice. -/
def lowerStr (s : Str) : Str := s.map toAsciiLower

/-- Rust `str::eq_ignore_ascii_case`: equality after per-character ASCII
lowercasing (same length and pointwise case-insensitive equality). -/
def eqIgnoreAsciiCase (a b : Str) : Bool := lowerStr a == lowerStr b

/-- Rust `str::trim`: drop Unicode whitespace from both ends. -/
def trim (s : Str) : Str :=
  ((s.dropWhile isWhitespaceChar).reverse.dropWhile isWhitespaceChar).reverse

/-- Source `name_char`: `:`, ASCII letters, and `!` (for the doctype tag). -/
def name_char (c : Char) : Bool :=
  c == ':' || (decide (97 ≤ c.toNat) && decide (c.toNat ≤ 122)) ||
    (decide (65 ≤ c.toNat) && decide (c.toNat ≤ 90)) || c == '!'

/-- Source `identifier`: `take_while1(name_char)`. -/
def identifier (input : Str) : PResult Str := take_while1 name_char input

/-- Source `is_char`: characters allowed in plain (non-CDATA) text. -/
def is_char (x : Char) : Bool := x != '<' && x != '>'

/-- Source `attribute_value`: an opening `"` or `'`, every character other
than that quote, then the closing quote; no escape processing. -/
def attribute_value (input : Str) : PResult Str :=
  (alt (tag ['"']) (tag ['\'']) input).bind fun input quote =>
  (take_while (fun ch => !([ch] == quote)) input).bind fun input data =>
  (tag quote input).bind fun input _ => .ok input data

/-- Source `eq`: optional whitespace, `=`, optional whitespace. -/
def eq (input : Str) : PResult Unit :=
  (tag ['='] (ws input)).bind fun input _ => .ok (ws input) ()

/-- Source `attribute`: whitespace, identifier (key, ASCII-lowercased), `eq`,
quoted value, trailing whitespace. -/
def attributeP (input : Str) : PResult (Str × Str) :=
  (identifier (ws input)).bind fun input key =>
  (eq input).bind fun input _ =>
  (attribute_value input).bind fun input value =>
  .ok (ws input) (lowerStr key, value)

/-- nom's `many0(attribute)`: collect attributes until one fails softly; a
non-soft error propagates; nom's infinite-loop guard turns a zero-length
match into a soft `ErrorKind::Many0` error (`attribute` always consumes, so
the guard never actually fires).  Fuel bounds the iteration count. -/
def many0_attr : Nat → Str → PResult (List (Str × Str))
  | 0, _ => .err .nofuel
  | fuel + 1, input =>
    match attributeP input with
    | .err .soft => .ok input []
    | .err e => .err e
    | .ok input1 a =>
      if input1.length == input.length then .err .soft
      else
        match many0_attr fuel input1 with
        | .ok input2 rest => .ok input2 (a :: rest)
        | .err e => .err e

/-- Source `cdata_section`: the literal `<![CDATA[` marker, everything up to
the first `]]>` captured verbatim, then the `]]>` marker. -/
def cdata_section (input : Str) : PResult Str :=
  (tag "<![CDATA[".toList input).bind fun input _ =>
  (take_until "]]>".toList input).bind fun input data =>
  (tag "]]>".toList input).bind fun input _ => .ok input data

/-- Source `text_data`: a possibly empty run of characters that are neither
`<` nor `>`. -/
def text_data (input : Str) : PResult Str :=
  (take_while is_char input).bind fun input data => .ok input data

/-- Source `char_data`: a CDATA section, else plain text. -/
def char_data (input : Str) : PResult Str :=
  alt cdata_section text_data input

mutual
/-- Source `struct Element`: a name, an attribute mapping and ordered
children.  The `HashMap<String, String>` is embedded as an association list
in insertion order; the parser keeps its keys unique, so lookup semantics
coincide. -/
inductive Element where
  | mk (name : Str) (attributes : List (Str × Str)) (children : List Node)
deriving Repr
/-- Source `enum Node`: character data or an element. -/
inductive Node where
  | CharData (data : Str)
  | Element (element : Element)
deriving Repr
end

/-- Projection for the `name` field of `Element`. -/
def Element.name : Element → Str
  | .mk n _ _ => n

/-- Projection for the `attributes` field of `Element`. -/
def Element.attributes : Element → List (Str × Str)
  | .mk _ a _ => a

/-- Projection for the `children` field of `Element`. -/
def Element.children : Element → List Node
  | .mk _ _ c => c

/-- Source `char_data_into_node`. -/
def char_data_into_node (input : Str) : PResult Node :=
  (char_data input).bind fun input data => .ok input (.CharData data)

/-- The attribute-map assembly loop of `Parser::element` (lines 275-285):
iterate over the parsed `(key, value)` pairs in textual order, rejecting a
key that is already present; `map.insert` is appending to the association
list. -/
def insertAttrs : List (Str × Str) → List (Str × Str) → Option (List (Str × Str))
  | map, [] => some map
  | map, (key, value) :: rest =>
    if (map.lookup key).isSome then none
    else insertAttrs (map ++ [(key, value)]) rest

/-- The doctype special case of `Parser::element` (lines 228-244): after the
raw name `!DOCTYPE`, skip to the next `>`, consume it, and produce the fixed
sentinel element; the guard `input.len() > 0` mirrors the source (its `else`
arm returns a soft `nom::Err::Error`). -/
def doctypeTail (input : Str) : PResult Element :=
  (take_until ['>'] input).bind fun input _ =>
  if input.length > 0 then
    .ok (input.drop 1) (.mk "doctype_decl".toList [] [])
  else .err .soft

/-- The first closing alternative of `Parser::element` (lines 248-256): if
the lowercased name is in the configured `allow_no_close` set, a bare `>`
closes the element with no children; otherwise (or when that `tag(">")`
fails) `/>` must follow, again yielding no children. -/
def closeNoBody (cfg : List Str) (name : Str) (input : Str) : PResult (List Node) :=
  if cfg.contains name then
    match tag ['>'] input with
    | .ok input _ => .ok input []
    | .err _ => (tag ['/', '>'] input).bind fun input _ => .ok input []
  else
    (tag ['/', '>'] input).bind fun input _ => .ok input []

mutual
/-- Source `Parser::element` (lines 225-289): `<`, identifier; the doctype
special case; otherwise lowercase the name, skip whitespace, parse the
attributes, run the two closing alternatives in order (childless close, else
`>` body `</` identifier `>` with a case-insensitive name check whose
mismatch is a committed `nom::Err::Failure`), skip trailing whitespace and
assemble the attribute map, rejecting duplicate keys with a soft
`nom::Err::Error`.  The `fuel` argument bounds recursion depth. -/
def elementF (cfg : List Str) : Nat → Str → PResult Element
  | 0, _ => .err .nofuel
  | fuel + 1, input =>
    (tag ['<'] input).bind fun input _ =>
    (identifier input).bind fun input name0 =>
    if name0 == "!DOCTYPE".toList then doctypeTail input
    else
      let name := lowerStr name0
      let input := ws input
      (many0_attr fuel input).bind fun input attrs =>
      (alt (closeNoBody cfg name)
        (fun input =>
          (tag ['>'] input).bind fun input _ =>
          (nodesTillF cfg fuel (ws input)).bind fun input children =>
          (identifier (ws input)).bind fun input res =>
          if name == lowerStr res then
            (tag ['>'] (ws input)).bind fun input _ => .ok input children
          else .err .fatal)
        input).bind fun input children =>
      let input := ws input
      match insertAttrs [] attrs with
      | none => .err .soft
      | some map => .ok input (.mk name map children)

/-- Source `Parser::node` (lines 296-298) combined with `element_into_node`:
try the element parser, wrapping a success in `Node::Element`; on a soft
error fall back to `char_data_into_node`; failures propagate. -/
def nodeF (cfg : List Str) : Nat → Str → PResult Node
  | 0, _ => .err .nofuel
  | fuel + 1, input =>
    alt
      (fun input =>
        match elementF cfg fuel input with
        | .ok rest element => .ok rest (.Element element)
        | .err e => .err e)
      char_data_into_node input

/-- nom's `many_till(node, tag("</"))` inside `Parser::element` (line 259):
each round first tries the terminator `</` (consuming it on success), then
runs the node parser; a soft node error becomes a soft `ManyTill` error, as
does a zero-length node match (nom's infinite-loop guard); other errors
propagate. -/
def nodesTillF (cfg : List Str) : Nat → Str → PResult (List Node)
  | 0, _ => .err .nofuel
  | fuel + 1, input =>
    match tag ['<', '/'] input with
    | .ok input _ => .ok input []
    | .err .soft =>
      match nodeF cfg fuel input with
      | .err .soft => .err .soft
      | .err e => .err e
      | .ok input1 n =>
        if input1.length == input.length then .err .soft
        else
          match nodesTillF cfg fuel input1 with
          | .ok input2 rest => .ok input2 (n :: rest)
          | .err e => .err e
    | .err e => .err e
end

/-- Source `version_num` digit-run conversion target: the value of a decimal
digit string. -/
def digitsVal (ds : Str) : Nat :=
  ds.foldl (fun a c => a * 10 + (c.toNat - 48)) 0

/-- Rust `str::parse::<i32>` as used on the scanned digit run: `none` models
every `Err` outcome that makes `unwrap` panic — the empty string, a
non-digit character, and positive overflow past `i32::MAX = 2147483647`. -/
def parseI32 (ds : Str) : Option Int :=
  if ds.isEmpty then none
  else if !(ds.all fun c => c.isDigit) then none
  else if digitsVal ds > 2147483647 then none
  else some (digitsVal ds)

/-- Source `version_num` (lines 347-351): the literal `1.`, then a digit run
converted with `data.parse().unwrap()` — the unchecked conversion whose
failure is a Rust panic (`crash`), not a parse error. -/
def version_num (input : Str) : PResult Int :=
  (tag ['1', '.'] input).bind fun input _ =>
  (take_while (fun ch => ch.isDigit) input).bind fun input data =>
  match parseI32 data with
  | some v => .ok input v
  | none => .err .crash

/-- Source `quoted(|_| version_num)`: an opening `"` or `'`, the version
number, then the same quote again. -/
def quotedVersion (input : Str) : PResult Int :=
  (alt (tag ['"']) (tag ['\'']) input).bind fun input quote =>
  (version_num input).bind fun input v =>
  (tag quote input).bind fun input _ => .ok input v

/-- Source `encoding` (lines 353-361): an optional `encoding=value`
attribute; if the literal `encoding` is absent, succeed with `None`. -/
def encoding (input : Str) : PResult (Option Str) :=
  match tag "encoding".toList input with
  | .ok input _ =>
    (eq input).bind fun input _ =>
    (attribute_value input).bind fun input data => .ok input (some data)
  | .err _ => .ok input none

/-- Source `struct Document`. -/
structure Document where
  version : Int
  encoding : Option Str
  root : Element
deriving Repr

/-- Source `Parser::document` (lines 300-319): whitespace, `<?xml`,
whitespace, `version`, `eq`, the quoted version literal, whitespace, the
optional encoding, whitespace, `?>`, whitespace, the root element, trailing
whitespace. -/
def documentF (cfg : List Str) (fuel : Nat) (input : Str) : PResult Document :=
  let input := ws input
  (tag "<?xml".toList input).bind fun input _ =>
  let input := ws input
  (tag "version".toList input).bind fun input _ =>
  (eq input).bind fun input _ =>
  (quotedVersion input).bind fun input version =>
  let input := ws input
  (encoding input).bind fun input enc =>
  let input := ws input
  (tag "?>".toList input).bind fun input _ =>
  let input := ws input
  (elementF cfg fuel input).bind fun input root =>
  .ok (ws input) (Document.mk version enc root)

/-- Source `struct Parser`: the only configuration is the set of tag names
allowed to self-close without a slash. -/
structure Parser where
  allow_no_close : List Str

/-- Entry point for `Parser::element`; the input can nest or repeat nodes at
most once per character, so `input.length + 1` fuel never runs out. -/
def Parser.element (p : Parser) (input : Str) : PResult Element :=
  elementF p.allow_no_close (input.length + 1) input

/-- Entry point for `Parser::node`. -/
def Parser.node (p : Parser) (input : Str) : PResult Node :=
  nodeF p.allow_no_close (input.length + 1) input

/-- Entry point for `Parser::document`. -/
def Parser.document (p : Parser) (input : Str) : PResult Document :=
  documentF p.allow_no_close (input.length + 1) input

/-- Outcome of a Rust computation that can panic: `ok` is a normal return,
`aborted` a panic (an index out of bounds, or an arithmetic-overflow check
failing under debug assertions). -/
inductive MayAbort (α : Type) where
  | ok (val : α)
  | aborted
deriving Repr, DecidableEq

/-- Rust `Vec` indexing `v[i]`: the value at `i`, or a panic out of bounds. -/
def vecIndex {α : Type} (v : List α) (i : Nat) : MayAbort α :=
  if h : i < v.length then .ok (v.get ⟨i, h⟩) else .aborted

/-- Rust unchecked `usize` subtraction `a - b`: underflow is an arithmetic
overflow, which panics when debug assertions are on (the default profile);
with wrapping arithmetic it would return `a + 2^64 - b (mod 2^64)`. -/
def usizeSub (a b : Nat) : MayAbort Nat :=
  if b ≤ a then .ok (a - b) else .aborted

/-- `QuerySupport<Node>::nth` (lines 48-54): bounds-checked positional
access. -/
def nthNodes (v : List Node) (index : Nat) : MayAbort (Option Node) :=
  if index < v.length then
    match vecIndex v index with
    | .ok x => .ok (some x)
    | .aborted => .aborted
  else .ok none

/-- `QuerySupport<Node>::first` (lines 44-46): `nth(0)`. -/
def firstNodes (v : List Node) : MayAbort (Option Node) := nthNodes v 0

/-- `QuerySupport<Node>::only` (lines 36-42): the single member when the
length is exactly 1, else `None`. -/
def onlyNodes (v : List Node) : MayAbort (Option Node) :=
  if v.length == 1 then
    match vecIndex v 0 with
    | .ok x => .ok (some x)
    | .aborted => .aborted
  else .ok none

/-- `QuerySupport<Node>::last` (lines 56-58): `nth(len - 1)` with an
unchecked `usize` subtraction. -/
def lastNodes (v : List Node) : MayAbort (Option Node) :=
  match usizeSub v.length 1 with
  | .ok i => nthNodes v i
  | .aborted => .aborted

/-- `QuerySupport<Element>::nth` (lines 87-93). -/
def nthElems (v : List Element) (index : Nat) : MayAbort (Option Element) :=
  if index < v.length then
    match vecIndex v index with
    | .ok x => .ok (some x)
    | .aborted => .aborted
  else .ok none

/-- `QuerySupport<Element>::first` (lines 83-85). -/
def firstElems (v : List Element) : MayAbort (Option Element) := nthElems v 0

/-- `QuerySupport<Element>::only` (lines 75-81). -/
def onlyElems (v : List Element) : MayAbort (Option Element) :=
  if v.length == 1 then
    match vecIndex v 0 with
    | .ok x => .ok (some x)
    | .aborted => .aborted
  else .ok none

/-- `QuerySupport<Element>::last` (lines 95-101): unlike the `Node` version
it guards the empty sequence explicitly, then indexes at `len - 1`. -/
def lastElems (v : List Element) : MayAbort (Option Element) :=
  if v.length == 0 then .ok none
  else
    match vecIndex v (v.length - 1) with
    | .ok x => .ok (some x)
    | .aborted => .aborted

/-- `QuerySupport<Node>::elem_name` (lines 60-72): the for-loop with its
accumulator vector `v`; a matching element is pushed and its children are
not visited, a non-matching element contributes the recursive search of its
children (`Element::children` materializes the same list of borrowed
references), and character data contributes nothing. -/
def elemNameNodesGo (target : Str) (v : List Element) : List Node → List Element
  | [] => v
  | .CharData _ :: xs => elemNameNodesGo target v xs
  | .Element (.mk n a c) :: xs =>
    if eqIgnoreAsciiCase n target then
      elemNameNodesGo target (v ++ [.mk n a c]) xs
    else
      elemNameNodesGo target (v ++ elemNameNodesGo target [] c) xs

/-- `QuerySupport<Node>::elem_name` run with the empty accumulator the
source's `let mut v = vec![]` starts from. -/
def elemNameNodes (target : Str) (ns : List Node) : List Element :=
  elemNameNodesGo target [] ns

/-- `QuerySupport<Element>::elem_name` (lines 103-114): same loop over a
sequence of elements; recursion into children goes through the `Node`
version. -/
def elemNameElemsGo (target : Str) (v : List Element) : List Element → List Element
  | [] => v
  | .mk n a c :: xs =>
    if eqIgnoreAsciiCase n target then
      elemNameElemsGo target (v ++ [.mk n a c]) xs
    else
      elemNameElemsGo target (v ++ elemNameNodes target c) xs

/-- `QuerySupport<Element>::elem_name` from the empty accumulator. -/
def elemNameElems (target : Str) (es : List Element) : List Element :=
  elemNameElemsGo target [] es

/-- The retention predicate of `Element::strip_whitespace` (line 365): keep
a `CharData` child exactly when its trimmed content is nonempty; keep every
`Element` child. -/
def keepChild : Node → Bool
  | .CharData data => decide ((trim data).length > 0)
  | .Element _ => true

mutual
/-- Source `Element::strip_whitespace` (lines 364-371), the mutating
variant: drop the whitespace-only `CharData` children, keep retained text
byte-identical, and recurse into the remaining `Element` children.  The
source first runs `Vec::retain` and then mutates the survivors in place;
here the two passes are fused into one traversal of the children (the
retention test and the element descent are independent, and both passes
preserve order, so the fused loop computes the same list — see
`strip_whitespace_eq_retain_then_descend`). -/
def Element.strip_whitespace : Element → Element
  | .mk n a c => .mk n a (stripChildren c)
/-- One fused retain-and-descend pass over a children list. -/
def stripChildren : List Node → List Node
  | [] => []
  | .CharData data :: xs =>
    if (trim data).length > 0 then .CharData data :: stripChildren xs
    else stripChildren xs
  | .Element e :: xs => .Element e.strip_whitespace :: stripChildren xs
end

/-- The post-retention descent loop of `Element::strip_whitespace` (lines
366-370) on its own: recurse into every `Element`, keep `CharData`
unchanged. -/
def descendRetained : List Node → List Node
  | [] => []
  | .CharData data :: xs => .CharData data :: descendRetained xs
  | .Element e :: xs => .Element e.strip_whitespace :: descendRetained xs

mutual
/-- Source free function `strip_whitespace` (lines 381-402), the pure
variant: trim character data; rebuild an element bottom-up, dropping any
child that is empty character data after its own rebuild. -/
def strip_whitespace : Node → Node
  | .CharData data => .CharData (trim data)
  | .Element (.mk n a c) => .Element (.mk n a (stripPureChildren c))
/-- The child-rebuilding loop of the pure `strip_whitespace`: each child is
rebuilt first; a rebuilt child that is `CharData` of length zero is skipped,
everything else is pushed in order. -/
def stripPureChildren : List Node → List Node
  | [] => []
  | x :: xs =>
    match strip_whitespace x with
    | .CharData d =>
      if d.length == 0 then stripPureChildren xs
      else .CharData d :: stripPureChildren xs
    | .Element e => .Element e :: stripPureChildren xs
end

/-- Source `Parser::complete_element` (lines 205-214): parse an element,
require full consumption, and apply the mutating whitespace strip. -/
def Parser.complete_element (p : Parser) (input : Str) : Option Element :=
  match p.element input with
  | .ok rest element =>
    if rest.length == 0 then some element.strip_whitespace else none
  | .err _ => none

/-- Source `Parser::complete_document` (lines 215-223). -/
def Parser.complete_document (p : Parser) (input : Str) : Option Document :=
  match p.document input with
  | .ok rest document =>
    if rest.length == 0 then
      some (Document.mk document.version document.encoding document.root.strip_whitespace)
    else none
  | .err _ => none

/-- ASCII letter test, used as a side condition in theorems that quantify
over tag and attribute names. -/
def isAsciiAlpha (c : Char) : Bool :=
  (decide (65 ≤ c.toNat) && decide (c.toNat ≤ 90)) ||
    (decide (97 ≤ c.toNat) && decide (c.toNat ≤ 122))

/-- A string free of ASCII uppercase letters: ASCII lowercasing fixes it. -/
def isAsciiLowerStr (s : Str) : Bool := lowerStr s == s

mutual
/-- Every element name and attribute key in this element and below is free
of ASCII uppercase letters. -/
def lowerElemB : Element → Bool
  | .mk n a c =>
    isAsciiLowerStr n && (a.all fun kv => isAsciiLowerStr kv.1) && lowerNodesB c
/-- `lowerElemB` lifted to a node. -/
def lowerNodeB : Node → Bool
  | .CharData _ => true
  | .Element e => lowerElemB e
/-- `lowerElemB` lifted to a node list. -/
def lowerNodesB : List Node → Bool
  | [] => true
  | x :: xs => lowerNodeB x && lowerNodesB xs
end

/-- Substring occurrence test: `t` occurs somewhere inside `s`. -/
def hasSub (t : Str) : Str → Bool
  | [] => t.isEmpty
  | c :: cs => isPref t (c :: cs) || hasSub t cs

mutual
/-- Modelled from the spec wording for the mutating whitespace strip, on an
element: remove, recursively at every depth, exactly those `CharData`
children whose trimmed content is empty; every retained `CharData` stays
byte-identical. -/
def removeEmptyTextElem : Element → Element
  | .mk n a c => .mk n a (removeEmptyTextChildren c)
/-- `removeEmptyTextElem` lifted to a node: character data at the top is
kept unchanged. -/
def removeEmptyTextNode : Node → Node
  | .CharData data => .CharData data
  | .Element e => .Element (removeEmptyTextElem e)
/-- The child filter of the spec-modelled removal: drop a `CharData` child
whose trim is empty, keep other `CharData` unchanged, recurse into
elements. -/
def removeEmptyTextChildren : List Node → List Node
  | [] => []
  | .CharData data :: xs =>
    if trim data == [] then removeEmptyTextChildren xs
    else .CharData data :: removeEmptyTextChildren xs
  | .Element e :: xs => .Element (removeEmptyTextElem e) :: removeEmptyTextChildren xs
end

mutual
/-- Modelled from the spec wording for the pure whitespace strip's extra
effect: replace every `CharData` anywhere in the tree by its trimmed value,
removing nothing. -/
def trimEveryCharData : Node → Node
  | .CharData data => .CharData (trim data)
  | .Element (.mk n a c) => .Element (.mk n a (trimEveryCharDataList c))
/-- `trimEveryCharData` on a children list. -/
def trimEveryCharDataList : List Node → List Node
  | [] => []
  | x :: xs => trimEveryCharData x :: trimEveryCharDataList xs
end

/-- Modelled from the spec wording of section 4.9 for `elem_name` over a
node sequence: visit the items in order; a case-insensitively matching
element is included and its children are not searched; a non-matching
element contributes the search of its children; character data contributes
nothing. -/
def elemNameNodesSpec (target : Str) : List Node → List Element
  | [] => []
  | .CharData _ :: xs => elemNameNodesSpec target xs
  | .Element (.mk n a c) :: xs =>
    if eqIgnoreAsciiCase n target then
      .mk n a c :: elemNameNodesSpec target xs
    else
      elemNameNodesSpec target c ++ elemNameNodesSpec target xs

/-- Modelled from the spec wording of section 4.9 for `elem_name` over an
element sequence: the same prune-on-match search starting from elements. -/
def elemNameElemsSpec (target : Str) : List Element → List Element
  | [] => []
  | .mk n a c :: xs =>
    if eqIgnoreAsciiCase n target then
      .mk n a c :: elemNameElemsSpec target xs
    else
      elemNameNodesSpec target c ++ elemNameElemsSpec target xs

end Macky

namespace Macky

/-! Sanity checks: the embedding reproduces the spec's example scenarios. -/
example : (Parser.mk []).element "<a x=\"1\"><b>hi</b><b>bye</b></a>".toList =
    .ok [] (.mk ['a'] [(['x'], ['1'])]
      [.Element (.mk ['b'] [] [.CharData ['h', 'i']]),
       .Element (.mk ['b'] [] [.CharData ['b', 'y', 'e']])]) := by rfl

example : (Parser.mk []).element "<a x=\"1\" x=\"2\"/>".toList = .err .soft := by rfl

example : (Parser.mk []).node "<a x=\"1\" x=\"2\"/>".toList =
    .ok "<a x=\"1\" x=\"2\"/>".toList (.CharData []) := by rfl

example : (Parser.mk []).element "<a><b></a>".toList = .err .fatal := by rfl

example : (Parser.mk []).node "<a><b></a>".toList = .err .fatal := by rfl

example : (Parser.mk []).document "<?xml version=\"1.0\" encoding=\"utf-8\"?><root/>".toList =
    .ok [] (Document.mk 0 (some "utf-8".toList) (.mk "root".toList [] [])) := by rfl

example : (Parser.mk ["img".toList]).element "<img src=\"x.png\">rest".toList =
    .ok "rest".toList (.mk "img".toList [("src".toList, "x.png".toList)] []) := by rfl

example : (Parser.mk []).node "<![CDATA[ <b/> ]]>tail".toList =
    .ok "tail".toList (.CharData " <b/> ".toList) := by rfl

example : (Parser.mk []).document "<?xml version=\"1.23\"?><a/>".toList =
    .ok [] (Document.mk 23 none (.mk ['a'] [] [])) := by rfl

example : (Parser.mk []).document "<?xml version=\"1.\"?><a/>".toList = .err .crash := by rfl

example : (Parser.mk []).element "<!DOCTYPE html><a/>".toList =
    .ok "<a/>".toList (.mk "doctype_decl".toList [] []) := by rfl

example : (Parser.mk []).element "<a>  <b/>  </a>".toList =
    .ok [] (.mk ['a'] [] [.Element (.mk ['b'] [] [])]) := by rfl

example : (Parser.mk []).element "<a>pre<b/></a>".toList =
    .ok [] (.mk ['a'] [] [.CharData "pre".toList, .Element (.mk ['b'] [] [])]) := by rfl
end Macky

namespace Macky

/-! Basic facts about characters and the lexical helpers. -/

theorem char_ofNat_toNat {n : Nat} (h : n < 55296) : (Char.ofNat n).toNat = n := by
  unfold Char.ofNat
  rw [dif_pos (Or.inl h)]
  rfl

theorem char_beq_false {a b : Char} (h : a.toNat ≠ b.toNat) : (a == b) = false := by
  rw [beq_eq_false_iff_ne]
  intro hc
  exact h (congrArg Char.toNat hc)

theorem char_eq_of_toNat {a b : Char} (h : a.toNat = b.toNat) : a = b := by
  apply Char.ext
  apply UInt32.ext
  simpa [Char.toNat] using h

theorem isAsciiAlpha_toNat {c : Char} (h : isAsciiAlpha c = true) :
    (65 ≤ c.toNat ∧ c.toNat ≤ 90) ∨ (97 ≤ c.toNat ∧ c.toNat ≤ 122) := by
  simp [isAsciiAlpha] at h
  omega

theorem alpha_name_char {c : Char} (h : isAsciiAlpha c = true) : name_char c = true := by
  simp only [name_char, Bool.or_eq_true, Bool.and_eq_true, decide_eq_true_eq]
  rcases isAsciiAlpha_toNat h with h' | h'
  · exact Or.inl (Or.inr ⟨h'.1, h'.2⟩)
  · exact Or.inl (Or.inl (Or.inr ⟨h'.1, h'.2⟩))

theorem not_ws_of_toNat {c : Char} (h1 : 33 ≤ c.toNat) (h2 : c.toNat ≤ 127) :
    isWhitespaceChar c = false := by
  unfold isWhitespaceChar
  rw [List.contains_eq_any_beq]
  simp only [List.any_cons, List.any_nil, Bool.or_eq_false_iff, beq_eq_false_iff_ne, ne_eq,
    and_true]
  omega

theorem alpha_not_ws {c : Char} (h : isAsciiAlpha c = true) : isWhitespaceChar c = false := by
  rcases isAsciiAlpha_toNat h with h' | h' <;> exact not_ws_of_toNat (by omega) (by omega)

theorem alpha_beq_low {c s : Char} (h : isAsciiAlpha c = true) (hs : s.toNat < 65) :
    (s == c) = false ∧ (c == s) = false := by
  rcases isAsciiAlpha_toNat h with h' | h' <;>
    exact ⟨char_beq_false (by omega), char_beq_false (by omega)⟩

theorem toNat_toAsciiLower (c : Char) :
    (toAsciiLower c).toNat =
      if 65 ≤ c.toNat ∧ c.toNat ≤ 90 then c.toNat + 32 else c.toNat := by
  by_cases h : 65 ≤ c.toNat ∧ c.toNat ≤ 90
  · rw [toAsciiLower, if_pos h, if_pos h]
    exact char_ofNat_toNat (by omega)
  · rw [toAsciiLower, if_neg h, if_neg h]

theorem toAsciiLower_idem (c : Char) : toAsciiLower (toAsciiLower c) = toAsciiLower c := by
  apply char_eq_of_toNat
  have hx := toNat_toAsciiLower c
  have hno : ¬ (65 ≤ (toAsciiLower c).toNat ∧ (toAsciiLower c).toNat ≤ 90) := by
    by_cases h : 65 ≤ c.toNat ∧ c.toNat ≤ 90
    · rw [hx, if_pos h]
      omega
    · rw [hx, if_neg h]
      omega
  rw [toNat_toAsciiLower, if_neg hno]

theorem lowerStr_idem (s : Str) : lowerStr (lowerStr s) = lowerStr s := by
  simp [lowerStr, Function.comp_def, toAsciiLower_idem]

theorem isAsciiLowerStr_lowerStr (s : Str) : isAsciiLowerStr (lowerStr s) = true := by
  simp [isAsciiLowerStr, lowerStr_idem]

theorem alpha_toAsciiLower {c : Char} (h : isAsciiAlpha c = true) :
    97 ≤ (toAsciiLower c).toNat ∧ (toAsciiLower c).toNat ≤ 122 := by
  rw [toNat_toAsciiLower]
  rcases isAsciiAlpha_toNat h with h' | h'
  · rw [if_pos h']
    omega
  · rw [if_neg (by omega)]
    omega

/-! Block-splitting facts about `takeWhile`, `dropWhile` and `isPref`. -/

theorem takeWhile_block (p : Char → Bool) (s r : Str) (hs : ∀ c ∈ s, p c = true)
    (hr : ∀ c, r.head? = some c → p c = false) : (s ++ r).takeWhile p = s := by
  induction s with
  | nil =>
    cases r with
    | nil => rfl
    | cons c cs => simp [List.takeWhile, hr c rfl]
  | cons c cs ih =>
    simp only [List.cons_append, List.takeWhile, hs c (by simp), List.append_eq]
    rw [ih (fun x hx => hs x (by simp [hx]))]

theorem dropWhile_block (p : Char → Bool) (s r : Str) (hs : ∀ c ∈ s, p c = true)
    (hr : ∀ c, r.head? = some c → p c = false) : (s ++ r).dropWhile p = r := by
  induction s with
  | nil =>
    cases r with
    | nil => rfl
    | cons c cs => simp [List.dropWhile, hr c rfl]
  | cons c cs ih =>
    simp only [List.cons_append, List.dropWhile, hs c (by simp), List.append_eq]
    exact ih (fun x hx => hs x (by simp [hx]))

theorem isPref_append (t r : Str) : isPref t (t ++ r) = true := by
  induction t with
  | nil => rfl
  | cons c cs ih => simp [isPref, ih]

theorem tag_append (t r : Str) : tag t (t ++ r) = .ok r t := by
  simp [tag, isPref_append, List.drop_left]

theorem tag_head_ne {c d : Char} (t r : Str) (h : (c == d) = false) :
    tag (c :: t) (d :: r) = .err .soft := by
  simp [tag, isPref, h]

theorem tag_nil (t : Str) (c : Char) (ts : Str) (h : t = c :: ts) : tag t [] = .err .soft := by
  subst h
  simp [tag, isPref]

theorem ws_cons {c : Char} {r : Str} (h : isWhitespaceChar c = false) : ws (c :: r) = c :: r := by
  simp [ws, List.dropWhile, h]

theorem ws_nil : ws [] = [] := rfl

theorem take_while1_block (p : Char → Bool) (s r : Str) (hne : s ≠ [])
    (hs : ∀ c ∈ s, p c = true) (hr : ∀ c, r.head? = some c → p c = false) :
    take_while1 p (s ++ r) = .ok r s := by
  unfold take_while1
  rw [takeWhile_block p s r hs hr, dropWhile_block p s r hs hr]
  cases s with
  | nil => exact absurd rfl hne
  | cons c cs => rfl

theorem identifier_block (s r : Str) (hne : s ≠ []) (hs : ∀ c ∈ s, name_char c = true)
    (hr : ∀ c, r.head? = some c → name_char c = false) : identifier (s ++ r) = .ok r s :=
  take_while1_block name_char s r hne hs hr

theorem identifier_head_fail {c : Char} (r : Str) (h : name_char c = false) :
    identifier (c :: r) = .err .soft := by
  simp [identifier, take_while1, List.takeWhile, h]

/-! Inversion principles for `PResult.bind` and `alt`. -/

theorem bind_eq_ok {α β : Type} {r : PResult α} {f : Str → α → PResult β} {rest : Str}
    {v : β} : r.bind f = .ok rest v ↔ ∃ i m, r = .ok i m ∧ f i m = .ok rest v := by
  cases r with
  | ok i m =>
    simp only [PResult.bind]
    constructor
    · intro h
      exact ⟨i, m, rfl, h⟩
    · rintro ⟨i', m', hh, h2⟩
      cases hh
      exact h2
  | err e => simp [PResult.bind]

theorem alt_eq_ok {α : Type} {f g : Str → PResult α} {i rest : Str} {v : α}
    (h : alt f g i = .ok rest v) :
    f i = .ok rest v ∨ (f i = .err .soft ∧ g i = .ok rest v) := by
  unfold alt at h
  cases hf : f i with
  | ok r w => rw [hf] at h; exact Or.inl h
  | err e =>
    cases e <;> rw [hf] at h
    · exact Or.inr ⟨rfl, h⟩
    all_goals cases h

end Macky

namespace Macky

/-! Remaining-input length bounds for the lexical parsers. -/

theorem dropWhile_length_le (p : Char → Bool) (l : Str) :
    (l.dropWhile p).length ≤ l.length := by
  induction l with
  | nil => simp [List.dropWhile]
  | cons c cs ih =>
    rw [List.dropWhile]
    cases p c
    · simp
    · simp
      omega

theorem ws_length (i : Str) : (ws i).length ≤ i.length :=
  dropWhile_length_le isWhitespaceChar i

theorem ws_cons_true {c : Char} {r : Str} (h : isWhitespaceChar c = true) :
    ws (c :: r) = ws r := by
  simp [ws, List.dropWhile, h]

theorem tag_ok_length {t i r v : Str} (h : tag t i = .ok r v) : r.length ≤ i.length := by
  unfold tag at h
  split at h
  · cases h
    simp
  · cases h

theorem take_while1_ok_length {p : Char → Bool} {i r v : Str}
    (h : take_while1 p i = .ok r v) : r.length < i.length := by
  unfold take_while1 at h
  rcases hw : i.takeWhile p with _ | ⟨c, cs⟩ <;> rw [hw] at h
  · cases h
  · cases h
    have hsum := congrArg List.length (List.takeWhile_append_dropWhile (p := p) (l := i))
    rw [hw] at hsum
    simp at hsum
    omega

theorem eq_ok_length {i r : Str} {v : Unit} (h : eq i = .ok r v) : r.length ≤ i.length := by
  unfold eq at h
  rw [bind_eq_ok] at h
  obtain ⟨i1, m1, h1, h2⟩ := h
  cases h2
  calc (ws i1).length ≤ i1.length := ws_length i1
    _ ≤ (ws i).length := tag_ok_length h1
    _ ≤ i.length := ws_length i

theorem attribute_value_ok_length {i r v : Str} (h : attribute_value i = .ok r v) :
    r.length ≤ i.length := by
  unfold attribute_value at h
  rw [bind_eq_ok] at h
  obtain ⟨i1, q, h1, h⟩ := h
  rw [bind_eq_ok] at h
  obtain ⟨i2, d, h2, h⟩ := h
  rw [bind_eq_ok] at h
  obtain ⟨i3, _, h3, h⟩ := h
  cases h
  have e1 : i1.length ≤ i.length := by
    rcases alt_eq_ok h1 with ha | ⟨_, ha⟩ <;> exact tag_ok_length ha
  have e2 : i2.length ≤ i1.length := by
    unfold take_while at h2
    cases h2
    exact dropWhile_length_le _ i1
  exact le_trans (le_trans (tag_ok_length h3) e2) e1

theorem attributeP_ok_length {i r : Str} {a : Str × Str} (h : attributeP i = .ok r a) :
    r.length < i.length := by
  unfold attributeP at h
  rw [bind_eq_ok] at h
  obtain ⟨i1, k, h1, h⟩ := h
  rw [bind_eq_ok] at h
  obtain ⟨i2, _, h2, h⟩ := h
  rw [bind_eq_ok] at h
  obtain ⟨i3, v, h3, h⟩ := h
  cases h
  have e1 : i1.length < i.length :=
    lt_of_lt_of_le (take_while1_ok_length h1) (ws_length i)
  have e2 : i2.length ≤ i1.length := eq_ok_length h2
  have e3 : i3.length ≤ i2.length := attribute_value_ok_length h3
  have e4 : (ws i3).length ≤ i3.length := ws_length i3
  omega

/-! Evaluation of the attribute grammar on a well-formed block. -/

theorem attribute_value_dq (v r : Str) (hv : ∀ c ∈ v, (c == '"') = false) :
    attribute_value ('"' :: (v ++ '"' :: r)) = .ok r v := by
  unfold attribute_value
  have h1 : alt (tag ['"']) (tag ['\'']) ('"' :: (v ++ '"' :: r)) =
      .ok (v ++ '"' :: r) ['"'] := by
    have := tag_append ['"'] (v ++ '"' :: r)
    simp only [List.cons_append, List.nil_append] at this
    unfold alt
    rw [this]
  rw [h1]
  simp only [PResult.bind]
  have htw : take_while (fun ch => !([ch] == ['"'])) (v ++ '"' :: r) = .ok ('"' :: r) v := by
    unfold take_while
    rw [takeWhile_block _ v ('"' :: r) (by intro c hc; simp [List.instBEq, List.beq, hv c hc])
          (by intro c hc; cases hc; simp [List.instBEq, List.beq]),
        dropWhile_block _ v ('"' :: r) (by intro c hc; simp [List.instBEq, List.beq, hv c hc])
          (by intro c hc; cases hc; simp [List.instBEq, List.beq])]
  rw [htw]
  simp only [PResult.bind]
  have := tag_append ['"'] r
  simp only [List.cons_append, List.nil_append] at this
  rw [this]

theorem attributeP_block (k v r : Str) (hk : k ≠ []) (hka : ∀ c ∈ k, isAsciiAlpha c = true)
    (hv : ∀ c ∈ v, (c == '"') = false) :
    attributeP (k ++ '=' :: '"' :: (v ++ '"' :: r)) = .ok (ws r) (lowerStr k, v) := by
  unfold attributeP
  have hws : ws (k ++ '=' :: '"' :: (v ++ '"' :: r)) = k ++ '=' :: '"' :: (v ++ '"' :: r) := by
    cases k with
    | nil => exact absurd rfl hk
    | cons c cs =>
      exact ws_cons (alpha_not_ws (hka c (by simp)))
  rw [hws]
  rw [identifier_block k ('=' :: '"' :: (v ++ '"' :: r)) hk
        (fun c hc => alpha_name_char (hka c hc)) (by intro c hc; cases hc; rfl)]
  simp only [PResult.bind]
  have heq : eq ('=' :: '"' :: (v ++ '"' :: r)) = .ok ('"' :: (v ++ '"' :: r)) () := by
    unfold eq
    rw [ws_cons (by rfl)]
    have := tag_append ['='] ('"' :: (v ++ '"' :: r))
    simp only [List.cons_append, List.nil_append] at this
    rw [this]
    simp only [PResult.bind]
    rw [ws_cons (by rfl)]
  rw [heq]
  simp only [PResult.bind]
  rw [attribute_value_dq v r hv]

theorem attributeP_head_fail {input : Str} {c : Char} {r : Str} (hw : ws input = c :: r)
    (h : name_char c = false) : attributeP input = .err .soft := by
  unfold attributeP
  rw [hw, identifier_head_fail r h]
  simp only [PResult.bind]

theorem many0_attr_stop {fuel : Nat} {input : Str} (h : attributeP input = .err .soft) :
    many0_attr (fuel + 1) input = .ok input [] := by
  unfold many0_attr
  rw [h]

theorem many0_attr_cons_ok {fuel : Nat} {input input1 input2 : Str} {a : Str × Str}
    {rest : List (Str × Str)} (h : attributeP input = .ok input1 a)
    (h2 : many0_attr fuel input1 = .ok input2 rest) :
    many0_attr (fuel + 1) input = .ok input2 (a :: rest) := by
  have hne : (input1.length == input.length) = false := by
    have := attributeP_ok_length h
    simp
    omega
  conv_lhs => unfold many0_attr
  simp only [h, hne, Bool.false_eq_true, if_false, h2]

theorem many0_attr_cons_err {fuel : Nat} {input input1 : Str} {a : Str × Str} {e : PError}
    (h : attributeP input = .ok input1 a) (h2 : many0_attr fuel input1 = .err e) :
    many0_attr (fuel + 1) input = .err e := by
  have hne : (input1.length == input.length) = false := by
    have := attributeP_ok_length h
    simp
    omega
  conv_lhs => unfold many0_attr
  simp only [h, hne, Bool.false_eq_true, if_false, h2]

end Macky

namespace Macky

/-! The `take_until` behaviour on a CDATA body: because no proper prefix of
the marker followed by the marker's own start can rebuild the marker, the
first `]]>` occurrence in `s ++ "]]>" ++ r` is exactly at the end of `s`
whenever `s` itself contains no `]]>`. -/

theorem take_until_cdata (s r : Str) (h : hasSub [']', ']', '>'] s = false) :
    take_until [']', ']', '>'] (s ++ ']' :: ']' :: '>' :: r) =
      .ok (']' :: ']' :: '>' :: r) s := by
  induction s with
  | nil =>
    have hp : isPref [']', ']', '>'] (']' :: ']' :: '>' :: r) = true := by
      have := isPref_append [']', ']', '>'] r
      simpa using this
    simp [take_until, hp]
  | cons c cs ih =>
    rw [hasSub, Bool.or_eq_false_iff] at h
    obtain ⟨h1, h2⟩ := h
    have hnp : isPref [']', ']', '>'] (c :: (cs ++ ']' :: ']' :: '>' :: r)) = false := by
      rw [isPref]
      cases hc : (']' == c) with
      | false => simp
      | true =>
        simp only [Bool.true_and]
        cases cs with
        | nil =>
          have : ('>' == ']') = false := rfl
          simp [isPref, this]
        | cons d ds =>
          rw [List.cons_append, isPref]
          cases hd : (']' == d) with
          | false => simp
          | true =>
            simp only [Bool.true_and]
            cases ds with
            | nil =>
              have : ('>' == ']') = false := rfl
              simp [isPref, this]
            | cons e es =>
              rw [List.cons_append, isPref]
              cases he : ('>' == e) with
              | false => simp
              | true =>
                exfalso
                have hc' := eq_of_beq hc
                have hd' := eq_of_beq hd
                have he' := eq_of_beq he
                rw [← hc', ← hd', ← he'] at h1
                simp [isPref] at h1
    rw [List.cons_append, take_until, if_neg (by rw [hnp]; simp), ih h2]

theorem cdata_section_block (s r : Str) (h : hasSub [']', ']', '>'] s = false) :
    cdata_section ("<![CDATA[".toList ++ (s ++ ']' :: ']' :: '>' :: r)) = .ok r s := by
  unfold cdata_section
  rw [tag_append "<![CDATA[".toList (s ++ ']' :: ']' :: '>' :: r)]
  simp only [PResult.bind]
  have hM : "]]>".toList = [']', ']', '>'] := rfl
  rw [hM, take_until_cdata s r h]
  simp only [PResult.bind]
  have := tag_append [']', ']', '>'] r
  simp only [List.cons_append, List.nil_append] at this
  rw [this]

theorem char_data_cdata (s r : Str) (h : hasSub [']', ']', '>'] s = false) :
    char_data ("<![CDATA[".toList ++ (s ++ ']' :: ']' :: '>' :: r)) = .ok r s := by
  unfold char_data alt
  rw [cdata_section_block s r h]

/-! Failure of the childless-close alternative when the next character opens
neither `>` nor `/>`. -/

theorem closeNoBody_fail {cfg : List Str} {name : Str} {input : Str}
    (h1 : tag ['>'] input = .err .soft) (h2 : tag ['/', '>'] input = .err .soft) :
    closeNoBody cfg name input = .err .soft := by
  unfold closeNoBody
  split
  · rw [h1, h2]
    rfl
  · rw [h2]
    rfl

theorem closeNoBody_slash {cfg : List Str} {name : Str} {r : Str} :
    closeNoBody cfg name ('/' :: '>' :: r) = .ok r [] := by
  unfold closeNoBody
  have ht : tag ['/', '>'] ('/' :: '>' :: r) = .ok r ['/', '>'] := by
    have := tag_append ['/', '>'] r
    simpa using this
  have hgt : tag ['>'] ('/' :: '>' :: r) = .err .soft := tag_head_ne _ _ rfl
  split
  · rw [hgt, ht]
    rfl
  · rw [ht]
    rfl

end Macky

namespace Macky

/-- On an input that opens a CDATA section the element parser fails softly:
the identifier after `<` is just `!` (stopped by `[`), which is not
`!DOCTYPE`, no attribute can start at `[`, and neither closing alternative
accepts `[`. -/
theorem elementF_cdata_soft (cfg : List Str) (fuel : Nat) (s r : Str) :
    elementF cfg (fuel + 2) ("<![CDATA[".toList ++ (s ++ ']' :: ']' :: '>' :: r)) =
      .err .soft := by
  show elementF cfg (fuel + 2)
      ('<' :: '!' :: '[' :: 'C' :: 'D' :: 'A' :: 'T' :: 'A' :: '[' ::
        (s ++ ']' :: ']' :: '>' :: r)) = .err .soft
  have htag : tag ['<']
      ('<' :: '!' :: '[' :: 'C' :: 'D' :: 'A' :: 'T' :: 'A' :: '[' ::
        (s ++ ']' :: ']' :: '>' :: r)) =
      .ok ('!' :: '[' :: 'C' :: 'D' :: 'A' :: 'T' :: 'A' :: '[' ::
        (s ++ ']' :: ']' :: '>' :: r)) ['<'] := by
    have := tag_append ['<']
      ('!' :: '[' :: 'C' :: 'D' :: 'A' :: 'T' :: 'A' :: '[' :: (s ++ ']' :: ']' :: '>' :: r))
    simpa using this
  have hid : identifier
      ('!' :: '[' :: 'C' :: 'D' :: 'A' :: 'T' :: 'A' :: '[' ::
        (s ++ ']' :: ']' :: '>' :: r)) =
      .ok ('[' :: 'C' :: 'D' :: 'A' :: 'T' :: 'A' :: '[' ::
        (s ++ ']' :: ']' :: '>' :: r)) ['!'] := by
    have := identifier_block ['!']
      ('[' :: 'C' :: 'D' :: 'A' :: 'T' :: 'A' :: '[' :: (s ++ ']' :: ']' :: '>' :: r))
      (by simp) (by intro c hc; rw [List.mem_singleton] at hc; subst hc; rfl)
      (by intro c hc; cases hc; rfl)
    simpa using this
  have hne : ((['!'] : Str) == "!DOCTYPE".toList) = false := rfl
  have hws : ws ('[' :: 'C' :: 'D' :: 'A' :: 'T' :: 'A' :: '[' ::
      (s ++ ']' :: ']' :: '>' :: r)) =
      '[' :: 'C' :: 'D' :: 'A' :: 'T' :: 'A' :: '[' :: (s ++ ']' :: ']' :: '>' :: r) :=
    ws_cons rfl
  have hattr : many0_attr (fuel + 1)
      ('[' :: 'C' :: 'D' :: 'A' :: 'T' :: 'A' :: '[' :: (s ++ ']' :: ']' :: '>' :: r)) =
      .ok ('[' :: 'C' :: 'D' :: 'A' :: 'T' :: 'A' :: '[' :: (s ++ ']' :: ']' :: '>' :: r))
        [] :=
    many0_attr_stop (attributeP_head_fail (ws_cons rfl) rfl)
  have hclose : closeNoBody cfg (lowerStr ['!'])
      ('[' :: 'C' :: 'D' :: 'A' :: 'T' :: 'A' :: '[' :: (s ++ ']' :: ']' :: '>' :: r)) =
      .err .soft :=
    closeNoBody_fail (tag_head_ne _ _ rfl) (tag_head_ne _ _ rfl)
  have hgt : tag ['>']
      ('[' :: 'C' :: 'D' :: 'A' :: 'T' :: 'A' :: '[' :: (s ++ ']' :: ']' :: '>' :: r)) =
      .err .soft := tag_head_ne _ _ rfl
  simp only [elementF, htag, PResult.bind, hid, hne, Bool.false_eq_true, if_false, hws,
    hattr, alt, hclose, hgt]

/-- C7: parsing character data, or a whole node, on the input
`<![CDATA[` ++ s ++ `]]>` ++ r, for any `s` that does not contain the
terminating marker `]]>`, succeeds and yields `CharData` whose content is
exactly `s` (no trimming, no interpretation, `<` and `>` in `s` included),
with remaining input `r`; the node parser never reinterprets the section as
markup — its element alternative fails softly and the character-data
alternative wins. -/
theorem C7_cdata_verbatim (cfg : List Str) (fuel : Nat) (s r : Str)
    (h : hasSub [']', ']', '>'] s = false) :
    char_data ("<![CDATA[".toList ++ (s ++ ']' :: ']' :: '>' :: r)) = .ok r s ∧
    nodeF cfg (fuel + 3) ("<![CDATA[".toList ++ (s ++ ']' :: ']' :: '>' :: r)) =
      .ok r (.CharData s) := by
  refine ⟨char_data_cdata s r h, ?_⟩
  have helem := elementF_cdata_soft cfg fuel s r
  have hcd := char_data_cdata s r h
  show nodeF cfg (fuel + 2 + 1) ("<![CDATA[".toList ++ (s ++ ']' :: ']' :: '>' :: r)) =
    .ok r (.CharData s)
  simp only [nodeF, alt, helem, char_data_into_node, hcd, PResult.bind]

/-- Witness for C7: the spec's own CDATA example body ` <b/> ` with trailing
input `tail`. -/
theorem C7_witness :
    char_data ("<![CDATA[".toList ++ (" <b/> ".toList ++ ']' :: ']' :: '>' :: "tail".toList)) =
      .ok "tail".toList " <b/> ".toList ∧
    nodeF [] 3 ("<![CDATA[".toList ++ (" <b/> ".toList ++ ']' :: ']' :: '>' :: "tail".toList)) =
      .ok "tail".toList (.CharData " <b/> ".toList) :=
  C7_cdata_verbatim [] 0 " <b/> ".toList "tail".toList (by rfl)

end Macky

namespace Macky

/-- The root element `<a/>` parses, under any configuration, to the element
`a` with no attributes and no children, consuming the whole input. -/
theorem elementF_a_selfclose (cfg : List Str) (fuel : Nat) :
    elementF cfg (fuel + 2) "<a/>".toList = .ok [] (.mk ['a'] [] []) := by
  show elementF cfg (fuel + 2) ('<' :: 'a' :: '/' :: '>' :: []) = .ok [] (.mk ['a'] [] [])
  have htag : tag ['<'] ('<' :: 'a' :: '/' :: '>' :: []) =
      .ok ('a' :: '/' :: '>' :: []) ['<'] := by
    have := tag_append ['<'] ('a' :: '/' :: '>' :: [])
    simpa using this
  have hid : identifier ('a' :: '/' :: '>' :: []) = .ok ('/' :: '>' :: []) ['a'] := by
    have := identifier_block ['a'] ('/' :: '>' :: []) (by simp)
      (by intro c hc; rw [List.mem_singleton] at hc; subst hc; rfl)
      (by intro c hc; cases hc; rfl)
    simpa using this
  have hne : ((['a'] : Str) == "!DOCTYPE".toList) = false := rfl
  have hlow : lowerStr ['a'] = ['a'] := rfl
  have hws1 : ws ('/' :: '>' :: []) = '/' :: '>' :: [] := ws_cons rfl
  have hattr : many0_attr (fuel + 1) ('/' :: '>' :: []) = .ok ('/' :: '>' :: []) [] :=
    many0_attr_stop (attributeP_head_fail hws1 rfl)
  simp only [elementF, htag, PResult.bind, hid, hne, Bool.false_eq_true, if_false, hlow,
    hws1, hattr, alt, closeNoBody_slash, ws_nil]
  rfl

/-- C6: the version-fraction-to-integer conversion is unchecked: on the
document input `<?xml version="1."?><a/>`, whose version literal has zero
digits after the `1.` prefix, `data.parse::<i32>().unwrap()` panics — the
whole parse ends in the distinguished abort outcome `crash`, not in the
parser's recoverable soft or fatal error results. -/
theorem C6_version_unwrap_crash :
    (Parser.mk []).document "<?xml version=\"1.\"?><a/>".toList = .err .crash ∧
    version_num "1.".toList = .err .crash :=
  ⟨rfl, rfl⟩

end Macky

namespace Macky

/-- C5 (amended): for every quoted version literal `1.` followed by one or
more ASCII digits whose decimal value fits in `i32` (is at most
2147483647), the document parser reports as the version exactly the integer
value of the digit run after `1.` — the literal is not read as a decimal
number — so literal `1.0` yields `0` and `1.23` yields `23`.  (The
unamended claim fails for digit runs overflowing `i32`; see the
counterexample.) -/
theorem C5_version_digit_run (cfg : List Str) (fuel : Nat) (ds : Str) (hne : ds ≠ [])
    (hd : ∀ c ∈ ds, c.isDigit = true) (hfit : digitsVal ds ≤ 2147483647) :
    documentF cfg (fuel + 2)
        ("<?xml version=\"1.".toList ++ (ds ++ "\"?><a/>".toList)) =
      .ok [] (Document.mk (digitsVal ds) none (.mk ['a'] [] [])) ∧
    (Parser.mk []).document "<?xml version=\"1.0\"?><a/>".toList =
      .ok [] (Document.mk 0 none (.mk "a".toList [] [])) ∧
    (Parser.mk []).document "<?xml version=\"1.23\"?><a/>".toList =
      .ok [] (Document.mk 23 none (.mk "a".toList [] [])) := by
  refine ⟨?_, rfl, rfl⟩
  show documentF cfg (fuel + 2)
      ('<' :: '?' :: 'x' :: 'm' :: 'l' :: ' ' :: 'v' :: 'e' :: 'r' :: 's' :: 'i' :: 'o' ::
        'n' :: '=' :: '"' :: '1' :: '.' ::
        (ds ++ '"' :: '?' :: '>' :: '<' :: 'a' :: '/' :: '>' :: [])) =
    .ok [] (Document.mk (digitsVal ds) none (.mk ['a'] [] []))
  have hw0 : ws ('<' :: '?' :: 'x' :: 'm' :: 'l' :: ' ' :: 'v' :: 'e' :: 'r' :: 's' :: 'i' ::
      'o' :: 'n' :: '=' :: '"' :: '1' :: '.' ::
      (ds ++ '"' :: '?' :: '>' :: '<' :: 'a' :: '/' :: '>' :: [])) =
      '<' :: '?' :: 'x' :: 'm' :: 'l' :: ' ' :: 'v' :: 'e' :: 'r' :: 's' :: 'i' :: 'o' ::
      'n' :: '=' :: '"' :: '1' :: '.' ::
      (ds ++ '"' :: '?' :: '>' :: '<' :: 'a' :: '/' :: '>' :: []) := ws_cons rfl
  have h1 : tag "<?xml".toList
      ('<' :: '?' :: 'x' :: 'm' :: 'l' :: ' ' :: 'v' :: 'e' :: 'r' :: 's' :: 'i' :: 'o' ::
        'n' :: '=' :: '"' :: '1' :: '.' ::
        (ds ++ '"' :: '?' :: '>' :: '<' :: 'a' :: '/' :: '>' :: [])) =
      .ok (' ' :: 'v' :: 'e' :: 'r' :: 's' :: 'i' :: 'o' :: 'n' :: '=' :: '"' :: '1' :: '.' ::
        (ds ++ '"' :: '?' :: '>' :: '<' :: 'a' :: '/' :: '>' :: [])) "<?xml".toList := by
    have := tag_append "<?xml".toList
      (' ' :: 'v' :: 'e' :: 'r' :: 's' :: 'i' :: 'o' :: 'n' :: '=' :: '"' :: '1' :: '.' ::
        (ds ++ '"' :: '?' :: '>' :: '<' :: 'a' :: '/' :: '>' :: []))
    simpa using this
  have hw1 : ws (' ' :: 'v' :: 'e' :: 'r' :: 's' :: 'i' :: 'o' :: 'n' :: '=' :: '"' :: '1' ::
      '.' :: (ds ++ '"' :: '?' :: '>' :: '<' :: 'a' :: '/' :: '>' :: [])) =
      'v' :: 'e' :: 'r' :: 's' :: 'i' :: 'o' :: 'n' :: '=' :: '"' :: '1' :: '.' ::
      (ds ++ '"' :: '?' :: '>' :: '<' :: 'a' :: '/' :: '>' :: []) := by
    have hsp : isWhitespaceChar ' ' = true := rfl
    rw [ws_cons_true hsp]
    exact ws_cons rfl
  have h2 : tag "version".toList
      ('v' :: 'e' :: 'r' :: 's' :: 'i' :: 'o' :: 'n' :: '=' :: '"' :: '1' :: '.' ::
        (ds ++ '"' :: '?' :: '>' :: '<' :: 'a' :: '/' :: '>' :: [])) =
      .ok ('=' :: '"' :: '1' :: '.' :: (ds ++ '"' :: '?' :: '>' :: '<' :: 'a' :: '/' :: '>' :: []))
        "version".toList := by
    have := tag_append "version".toList
      ('=' :: '"' :: '1' :: '.' :: (ds ++ '"' :: '?' :: '>' :: '<' :: 'a' :: '/' :: '>' :: []))
    simpa using this
  have h3 : eq ('=' :: '"' :: '1' :: '.' ::
      (ds ++ '"' :: '?' :: '>' :: '<' :: 'a' :: '/' :: '>' :: [])) =
      .ok ('"' :: '1' :: '.' :: (ds ++ '"' :: '?' :: '>' :: '<' :: 'a' :: '/' :: '>' :: [])) () := by
    unfold eq
    have hwa : ws ('=' :: '"' :: '1' :: '.' ::
        (ds ++ '"' :: '?' :: '>' :: '<' :: 'a' :: '/' :: '>' :: [])) =
        '=' :: '"' :: '1' :: '.' :: (ds ++ '"' :: '?' :: '>' :: '<' :: 'a' :: '/' :: '>' :: []) :=
      ws_cons rfl
    have ht : tag ['='] ('=' :: '"' :: '1' :: '.' ::
        (ds ++ '"' :: '?' :: '>' :: '<' :: 'a' :: '/' :: '>' :: [])) =
        .ok ('"' :: '1' :: '.' :: (ds ++ '"' :: '?' :: '>' :: '<' :: 'a' :: '/' :: '>' :: []))
          ['='] := by
      have := tag_append ['=']
        ('"' :: '1' :: '.' :: (ds ++ '"' :: '?' :: '>' :: '<' :: 'a' :: '/' :: '>' :: []))
      simpa using this
    have hwb : ws ('"' :: '1' :: '.' ::
        (ds ++ '"' :: '?' :: '>' :: '<' :: 'a' :: '/' :: '>' :: [])) =
        '"' :: '1' :: '.' :: (ds ++ '"' :: '?' :: '>' :: '<' :: 'a' :: '/' :: '>' :: []) :=
      ws_cons rfl
    rw [hwa, ht]
    simp only [PResult.bind]
    rw [hwb]
  have h4 : quotedVersion ('"' :: '1' :: '.' ::
      (ds ++ '"' :: '?' :: '>' :: '<' :: 'a' :: '/' :: '>' :: [])) =
      .ok ('?' :: '>' :: '<' :: 'a' :: '/' :: '>' :: []) ((digitsVal ds : Int)) := by
    unfold quotedVersion
    have hq : alt (tag ['"']) (tag ['\''])
        ('"' :: '1' :: '.' :: (ds ++ '"' :: '?' :: '>' :: '<' :: 'a' :: '/' :: '>' :: [])) =
        .ok ('1' :: '.' :: (ds ++ '"' :: '?' :: '>' :: '<' :: 'a' :: '/' :: '>' :: [])) ['"'] := by
      unfold alt
      have := tag_append ['"']
        ('1' :: '.' :: (ds ++ '"' :: '?' :: '>' :: '<' :: 'a' :: '/' :: '>' :: []))
      simp only [List.cons_append, List.nil_append] at this
      rw [this]
    rw [hq]
    simp only [PResult.bind]
    have hvn : version_num ('1' :: '.' ::
        (ds ++ '"' :: '?' :: '>' :: '<' :: 'a' :: '/' :: '>' :: [])) =
        .ok ('"' :: '?' :: '>' :: '<' :: 'a' :: '/' :: '>' :: []) ((digitsVal ds : Int)) := by
      unfold version_num
      have ht1 : tag ['1', '.'] ('1' :: '.' ::
          (ds ++ '"' :: '?' :: '>' :: '<' :: 'a' :: '/' :: '>' :: [])) =
          .ok (ds ++ '"' :: '?' :: '>' :: '<' :: 'a' :: '/' :: '>' :: []) ['1', '.'] := by
        have := tag_append ['1', '.'] (ds ++ '"' :: '?' :: '>' :: '<' :: 'a' :: '/' :: '>' :: [])
        simpa using this
      rw [ht1]
      simp only [PResult.bind]
      have htw : take_while (fun ch => ch.isDigit)
          (ds ++ '"' :: '?' :: '>' :: '<' :: 'a' :: '/' :: '>' :: []) =
          .ok ('"' :: '?' :: '>' :: '<' :: 'a' :: '/' :: '>' :: []) ds := by
        unfold take_while
        rw [takeWhile_block _ ds _ hd (by intro c hc; cases hc; rfl),
          dropWhile_block _ ds _ hd (by intro c hc; cases hc; rfl)]
      rw [htw]
      simp only [PResult.bind]
      have hp : parseI32 ds = some ((digitsVal ds : Int)) := by
        unfold parseI32
        rw [if_neg (by simp [hne]), if_neg (by simp [List.all_eq_true]; exact hd),
          if_neg (by omega)]
      rw [hp]
    rw [hvn]
    simp only [PResult.bind]
    have := tag_append ['"'] ('?' :: '>' :: '<' :: 'a' :: '/' :: '>' :: [])
    simp only [List.cons_append, List.nil_append] at this
    rw [this]
  have hw2 : ws ('?' :: '>' :: '<' :: 'a' :: '/' :: '>' :: []) =
      '?' :: '>' :: '<' :: 'a' :: '/' :: '>' :: [] := ws_cons rfl
  have h5 : encoding ('?' :: '>' :: '<' :: 'a' :: '/' :: '>' :: []) =
      .ok ('?' :: '>' :: '<' :: 'a' :: '/' :: '>' :: []) none := by
    have ht : tag "encoding".toList ('?' :: '>' :: '<' :: 'a' :: '/' :: '>' :: []) =
        .err .soft := by
      show tag ('e' :: 'n' :: 'c' :: 'o' :: 'd' :: 'i' :: 'n' :: 'g' :: [])
        ('?' :: '>' :: '<' :: 'a' :: '/' :: '>' :: []) = .err .soft
      exact tag_head_ne _ _ rfl
    unfold encoding
    rw [ht]
  have h6 : tag "?>".toList ('?' :: '>' :: '<' :: 'a' :: '/' :: '>' :: []) =
      .ok ('<' :: 'a' :: '/' :: '>' :: []) "?>".toList := by
    have := tag_append "?>".toList ('<' :: 'a' :: '/' :: '>' :: [])
    simpa using this
  have hw3 : ws ('<' :: 'a' :: '/' :: '>' :: []) = '<' :: 'a' :: '/' :: '>' :: [] :=
    ws_cons rfl
  have h7 : elementF cfg (fuel + 2) ('<' :: 'a' :: '/' :: '>' :: []) =
      .ok [] (.mk ['a'] [] []) := elementF_a_selfclose cfg fuel
  simp only [documentF, hw0, h1, PResult.bind, hw1, h2, h3, h4, hw2, h5, h6, hw3, h7, ws_nil]

/-- Counterexample to C5 as stated: the version literal `1.2147483648`
consists of `1.` followed by one or more ASCII digits, yet the document
parse does not report the integer 2147483648 — `parse::<i32>` overflows and
`unwrap` panics, aborting the parse with the `crash` outcome. -/
theorem C5_counterexample :
    (Parser.mk []).document "<?xml version=\"1.2147483648\"?><a/>".toList = .err .crash ∧
    version_num "1.2147483648".toList = .err .crash :=
  ⟨rfl, rfl⟩

/-- Witness for C5: the amended theorem applied at the literal `1.23`. -/
theorem C5_witness :
    documentF [] 2 ("<?xml version=\"1.".toList ++ ("23".toList ++ "\"?><a/>".toList)) =
      .ok [] (Document.mk (digitsVal "23".toList) none (.mk ['a'] [] [])) :=
  (C5_version_digit_run [] 0 "23".toList (by decide) (by decide) (by decide)).1

end Macky

namespace Macky

/-! Helpers shared by the start-tag families: an all-letter name is not the
doctype marker, skips no whitespace, and membership in the configured set
decides `Vec::contains`. -/

theorem alpha_ne_doctype {n : Str} (hna : ∀ c ∈ n, isAsciiAlpha c = true) :
    (n == "!DOCTYPE".toList) = false := by
  rw [beq_eq_false_iff_ne]
  intro h
  subst h
  have hmem : '!' ∈ "!DOCTYPE".toList := by decide
  have := hna '!' hmem
  simp [isAsciiAlpha] at this

theorem ws_alpha {n : Str} (hn : n ≠ []) (hna : ∀ c ∈ n, isAsciiAlpha c = true) (X : Str) :
    ws (n ++ X) = n ++ X := by
  cases n with
  | nil => exact absurd rfl hn
  | cons c cs =>
    rw [List.cons_append]
    exact ws_cons (alpha_not_ws (hna c (by simp)))

theorem contains_true {x : Str} {l : List Str} (h : x ∈ l) : l.contains x = true :=
  List.elem_iff.mpr h

theorem contains_false {x : Str} {l : List Str} (h : x ∉ l) : l.contains x = false := by
  rw [Bool.eq_false_iff]
  intro hc
  exact h (List.elem_iff.mp hc)

/-- C3: an element whose start tag ends in `/>` has exactly zero children
under every configuration of the self-closing-without-slash set; an element
whose (lower-cased) name is in that set and whose start tag ends in a bare
`>` also has zero children, and the following input `r` is left unconsumed
(given that `r` does not begin with whitespace, which the element's trailing
whitespace skip would otherwise consume); the spec's concrete scenario with
configuration `{img}` parses `<img src="x.png">rest` to the `img` element
with attribute `src="x.png"`, zero children and remaining input `rest`. -/
theorem C3_selfclose_children (cfg : List Str) (fuel : Nat) (n r : Str) (hn : n ≠ [])
    (hna : ∀ c ∈ n, isAsciiAlpha c = true) (hr : ws r = r) :
    elementF cfg (fuel + 2) ('<' :: (n ++ '/' :: '>' :: r)) =
      .ok r (.mk (lowerStr n) [] []) ∧
    (lowerStr n ∈ cfg →
      elementF cfg (fuel + 2) ('<' :: (n ++ '>' :: r)) = .ok r (.mk (lowerStr n) [] [])) ∧
    (Parser.mk ["img".toList]).element "<img src=\"x.png\">rest".toList =
      .ok "rest".toList (.mk "img".toList [("src".toList, "x.png".toList)] []) := by
  refine ⟨?_, ?_, rfl⟩
  · have htag : tag ['<'] ('<' :: (n ++ '/' :: '>' :: r)) =
        .ok (n ++ '/' :: '>' :: r) ['<'] := by
      have := tag_append ['<'] (n ++ '/' :: '>' :: r)
      simpa using this
    have hid : identifier (n ++ '/' :: '>' :: r) = .ok ('/' :: '>' :: r) n :=
      identifier_block n ('/' :: '>' :: r) hn (fun c hc => alpha_name_char (hna c hc))
        (by intro c hc; cases hc; rfl)
    have hdoc := alpha_ne_doctype hna
    have hws1 : ws ('/' :: '>' :: r) = '/' :: '>' :: r := ws_cons rfl
    have hattr : many0_attr (fuel + 1) ('/' :: '>' :: r) = .ok ('/' :: '>' :: r) [] :=
      many0_attr_stop (attributeP_head_fail hws1 rfl)
    simp only [elementF, htag, PResult.bind, hid, hdoc, Bool.false_eq_true, if_false,
      hws1, hattr, alt, closeNoBody_slash, hr]
    rfl
  · intro hmem
    have htag : tag ['<'] ('<' :: (n ++ '>' :: r)) = .ok (n ++ '>' :: r) ['<'] := by
      have := tag_append ['<'] (n ++ '>' :: r)
      simpa using this
    have hid : identifier (n ++ '>' :: r) = .ok ('>' :: r) n :=
      identifier_block n ('>' :: r) hn (fun c hc => alpha_name_char (hna c hc))
        (by intro c hc; cases hc; rfl)
    have hdoc := alpha_ne_doctype hna
    have hws1 : ws ('>' :: r) = '>' :: r := ws_cons rfl
    have hattr : many0_attr (fuel + 1) ('>' :: r) = .ok ('>' :: r) [] :=
      many0_attr_stop (attributeP_head_fail hws1 rfl)
    have hclose : closeNoBody cfg (lowerStr n) ('>' :: r) = .ok r [] := by
      unfold closeNoBody
      rw [if_pos (by rw [contains_true hmem])]
      have := tag_append ['>'] r
      simp only [List.cons_append, List.nil_append] at this
      rw [this]
    simp only [elementF, htag, PResult.bind, hid, hdoc, Bool.false_eq_true, if_false,
      hws1, hattr, alt, hclose, hr]
    rfl

/-- Witness for C3: configuration `{img}`, tag name `img`, trailing input
`rest`. -/
theorem C3_witness :
    elementF ["img".toList] 2 ('<' :: ("img".toList ++ '/' :: '>' :: "rest".toList)) =
      .ok "rest".toList (.mk (lowerStr "img".toList) [] []) ∧
    (lowerStr "img".toList ∈ ["img".toList] →
      elementF ["img".toList] 2 ('<' :: ("img".toList ++ '>' :: "rest".toList)) =
        .ok "rest".toList (.mk (lowerStr "img".toList) [] [])) ∧
    (Parser.mk ["img".toList]).element "<img src=\"x.png\">rest".toList =
      .ok "rest".toList (.mk "img".toList [("src".toList, "x.png".toList)] []) :=
  C3_selfclose_children ["img".toList] 0 "img".toList "rest".toList (by decide)
    (by decide) (by rfl)

end Macky

namespace Macky

/-- C2: when the element parser has consumed a start tag and its body and
the identifier after the closing `</` does not equal the opening name
case-insensitively, the parse fails with the committed `Failure` outcome:
for all letter names `n1 ≠ n2` (after ASCII lowercasing) with `lowerStr n1`
outside the self-closing set, `<n1></n2>` makes the element parser return
`fatal`, and the node parser propagates that `fatal` without trying its
character-data alternative; concretely, the spec's scenario `<a><b></a>`
also ends in `fatal` at both levels. -/
theorem C2_endtag_mismatch_fatal (cfg : List Str) (fuel : Nat) (n1 n2 r : Str)
    (hn1 : n1 ≠ []) (hna1 : ∀ c ∈ n1, isAsciiAlpha c = true)
    (hn2 : n2 ≠ []) (hna2 : ∀ c ∈ n2, isAsciiAlpha c = true)
    (hni : lowerStr n1 ∉ cfg) (hne : lowerStr n1 ≠ lowerStr n2) :
    elementF cfg (fuel + 2) ('<' :: (n1 ++ '>' :: '<' :: '/' :: (n2 ++ '>' :: r))) =
      .err .fatal ∧
    nodeF cfg (fuel + 3) ('<' :: (n1 ++ '>' :: '<' :: '/' :: (n2 ++ '>' :: r))) =
      .err .fatal ∧
    (Parser.mk []).element "<a><b></a>".toList = .err .fatal ∧
    (Parser.mk []).node "<a><b></a>".toList = .err .fatal := by
  have helem : elementF cfg (fuel + 2)
      ('<' :: (n1 ++ '>' :: '<' :: '/' :: (n2 ++ '>' :: r))) = .err .fatal := by
    have htag : tag ['<'] ('<' :: (n1 ++ '>' :: '<' :: '/' :: (n2 ++ '>' :: r))) =
        .ok (n1 ++ '>' :: '<' :: '/' :: (n2 ++ '>' :: r)) ['<'] := by
      have := tag_append ['<'] (n1 ++ '>' :: '<' :: '/' :: (n2 ++ '>' :: r))
      simpa using this
    have hid : identifier (n1 ++ '>' :: '<' :: '/' :: (n2 ++ '>' :: r)) =
        .ok ('>' :: '<' :: '/' :: (n2 ++ '>' :: r)) n1 :=
      identifier_block n1 _ hn1 (fun c hc => alpha_name_char (hna1 c hc))
        (by intro c hc; cases hc; rfl)
    have hdoc := alpha_ne_doctype hna1
    have hws1 : ws ('>' :: '<' :: '/' :: (n2 ++ '>' :: r)) =
        '>' :: '<' :: '/' :: (n2 ++ '>' :: r) := ws_cons rfl
    have hattr : many0_attr (fuel + 1) ('>' :: '<' :: '/' :: (n2 ++ '>' :: r)) =
        .ok ('>' :: '<' :: '/' :: (n2 ++ '>' :: r)) [] :=
      many0_attr_stop (attributeP_head_fail hws1 rfl)
    have hclose : closeNoBody cfg (lowerStr n1) ('>' :: '<' :: '/' :: (n2 ++ '>' :: r)) =
        .err .soft := by
      unfold closeNoBody
      rw [if_neg (by rw [contains_false hni]; simp)]
      have hsl : tag ['/', '>'] ('>' :: '<' :: '/' :: (n2 ++ '>' :: r)) = .err .soft :=
        tag_head_ne _ _ rfl
      rw [hsl]
      rfl
    have hgt : tag ['>'] ('>' :: '<' :: '/' :: (n2 ++ '>' :: r)) =
        .ok ('<' :: '/' :: (n2 ++ '>' :: r)) ['>'] := by
      have := tag_append ['>'] ('<' :: '/' :: (n2 ++ '>' :: r))
      simpa using this
    have hws2 : ws ('<' :: '/' :: (n2 ++ '>' :: r)) = '<' :: '/' :: (n2 ++ '>' :: r) :=
      ws_cons rfl
    have htill : nodesTillF cfg (fuel + 1) ('<' :: '/' :: (n2 ++ '>' :: r)) =
        .ok (n2 ++ '>' :: r) [] := by
      have ht : tag ['<', '/'] ('<' :: '/' :: (n2 ++ '>' :: r)) =
          .ok (n2 ++ '>' :: r) ['<', '/'] := by
        have := tag_append ['<', '/'] (n2 ++ '>' :: r)
        simpa using this
      simp only [nodesTillF, ht]
    have hws3 : ws (n2 ++ '>' :: r) = n2 ++ '>' :: r := ws_alpha hn2 hna2 _
    have hid2 : identifier (n2 ++ '>' :: r) = .ok ('>' :: r) n2 :=
      identifier_block n2 _ hn2 (fun c hc => alpha_name_char (hna2 c hc))
        (by intro c hc; cases hc; rfl)
    have hcmp : ((lowerStr n1 : Str) == lowerStr n2) = false := by
      rw [beq_eq_false_iff_ne]
      exact hne
    simp only [elementF, htag, PResult.bind, hid, hdoc, Bool.false_eq_true, if_false,
      hws1, hattr, alt, hclose, hgt, hws2, htill, hws3, hid2, hcmp]
  refine ⟨helem, ?_, rfl, rfl⟩
  simp only [nodeF, alt, helem]

/-- Witness for C2: names `a` and `b`, empty configuration. -/
theorem C2_witness :
    elementF [] 2 ('<' :: ("a".toList ++ '>' :: '<' :: '/' :: ("b".toList ++ '>' :: []))) =
      .err .fatal ∧
    nodeF [] 3 ('<' :: ("a".toList ++ '>' :: '<' :: '/' :: ("b".toList ++ '>' :: []))) =
      .err .fatal ∧
    (Parser.mk []).element "<a><b></a>".toList = .err .fatal ∧
    (Parser.mk []).node "<a><b></a>".toList = .err .fatal :=
  C2_endtag_mismatch_fatal [] 0 "a".toList "b".toList [] (by decide) (by decide)
    (by decide) (by decide) (by decide) (by decide)

end Macky

namespace Macky

/-- On input starting `<` followed by a letter, `char_data` matches the
empty text run: the CDATA alternative fails at `!`, and `<` is not a text
character, so the text alternative succeeds consuming nothing. -/
theorem char_data_at_lt (n X : Str) (hn : n ≠ []) (hna : ∀ c ∈ n, isAsciiAlpha c = true) :
    char_data ('<' :: (n ++ X)) = .ok ('<' :: (n ++ X)) [] := by
  cases n with
  | nil => exact absurd rfl hn
  | cons c cs =>
    have hcd : cdata_section ('<' :: ((c :: cs) ++ X)) = .err .soft := by
      unfold cdata_section
      have ht : tag "<![CDATA[".toList ('<' :: ((c :: cs) ++ X)) = .err .soft := by
        show tag ('<' :: '!' :: '[' :: 'C' :: 'D' :: 'A' :: 'T' :: 'A' :: '[' :: [])
          ('<' :: (c :: (cs ++ X))) = .err .soft
        have hb : ('!' == c) = false := (alpha_beq_low (hna c (by simp)) (by decide)).1
        simp [tag, isPref, hb]
      rw [ht]
      rfl
    have htd : text_data ('<' :: ((c :: cs) ++ X)) = .ok ('<' :: ((c :: cs) ++ X)) [] := by
      have hic : is_char '<' = false := rfl
      unfold text_data take_while
      simp only [List.takeWhile, List.dropWhile, hic, PResult.bind]
    simp only [char_data, alt, hcd, htd]

/-- The attribute-map assembly rejects two identical keys instead of
overwriting: inserting the second pair fails. -/
theorem insertAttrs_dup (k1 k2 v1 v2 : Str) (hkk : k1 = k2) :
    insertAttrs [] [(k1, v1), (k2, v2)] = none := by
  subst hkk
  unfold insertAttrs
  rw [if_neg (by simp)]
  unfold insertAttrs
  rw [if_pos (by simp [List.lookup])]

/-- C1 (amended): a start tag with two attributes whose ASCII-lower-cased
keys collide makes the element parse fail with no silent overwrite of
either value (the assembly rejects the second pair), but the failure is
nom's recoverable `Error`, not a committed `Failure`: an enclosing ordered
choice backtracks into its next alternative — the node parser falls back to
an empty character-data match at the same position.  (The unamended claim
calls this failure fatal and non-backtracking; see the counterexample.) -/
theorem C1_duplicate_attr_soft (cfg : List Str) (fuel : Nat) (n k1 k2 v1 v2 r : Str)
    (hn : n ≠ []) (hna : ∀ c ∈ n, isAsciiAlpha c = true)
    (hk1 : k1 ≠ []) (hka1 : ∀ c ∈ k1, isAsciiAlpha c = true)
    (hk2 : k2 ≠ []) (hka2 : ∀ c ∈ k2, isAsciiAlpha c = true)
    (hkk : lowerStr k1 = lowerStr k2)
    (hv1 : ∀ c ∈ v1, (c == '"') = false) (hv2 : ∀ c ∈ v2, (c == '"') = false) :
    insertAttrs [] [(lowerStr k1, v1), (lowerStr k2, v2)] = none ∧
    elementF cfg (fuel + 4)
        ('<' :: (n ++ ' ' :: (k1 ++ '=' :: '"' ::
          (v1 ++ '"' :: ' ' :: (k2 ++ '=' :: '"' :: (v2 ++ '"' :: '/' :: '>' :: r)))))) =
      .err .soft ∧
    nodeF cfg (fuel + 5)
        ('<' :: (n ++ ' ' :: (k1 ++ '=' :: '"' ::
          (v1 ++ '"' :: ' ' :: (k2 ++ '=' :: '"' :: (v2 ++ '"' :: '/' :: '>' :: r)))))) =
      .ok ('<' :: (n ++ ' ' :: (k1 ++ '=' :: '"' ::
          (v1 ++ '"' :: ' ' :: (k2 ++ '=' :: '"' :: (v2 ++ '"' :: '/' :: '>' :: r))))))
        (.CharData []) := by
  have hdup := insertAttrs_dup (lowerStr k1) (lowerStr k2) v1 v2 hkk
  have helem : elementF cfg (fuel + 4)
      ('<' :: (n ++ ' ' :: (k1 ++ '=' :: '"' ::
        (v1 ++ '"' :: ' ' :: (k2 ++ '=' :: '"' :: (v2 ++ '"' :: '/' :: '>' :: r)))))) =
      .err .soft := by
    have htag : tag ['<'] ('<' :: (n ++ ' ' :: (k1 ++ '=' :: '"' ::
        (v1 ++ '"' :: ' ' :: (k2 ++ '=' :: '"' :: (v2 ++ '"' :: '/' :: '>' :: r)))))) =
        .ok (n ++ ' ' :: (k1 ++ '=' :: '"' ::
          (v1 ++ '"' :: ' ' :: (k2 ++ '=' :: '"' :: (v2 ++ '"' :: '/' :: '>' :: r))))) ['<'] := by
      have := tag_append ['<'] (n ++ ' ' :: (k1 ++ '=' :: '"' ::
        (v1 ++ '"' :: ' ' :: (k2 ++ '=' :: '"' :: (v2 ++ '"' :: '/' :: '>' :: r)))))
      simpa using this
    have hid : identifier (n ++ ' ' :: (k1 ++ '=' :: '"' ::
        (v1 ++ '"' :: ' ' :: (k2 ++ '=' :: '"' :: (v2 ++ '"' :: '/' :: '>' :: r))))) =
        .ok (' ' :: (k1 ++ '=' :: '"' ::
          (v1 ++ '"' :: ' ' :: (k2 ++ '=' :: '"' :: (v2 ++ '"' :: '/' :: '>' :: r))))) n :=
      identifier_block n _ hn (fun c hc => alpha_name_char (hna c hc))
        (by intro c hc; cases hc; rfl)
    have hdoc := alpha_ne_doctype hna
    have hws1 : ws (' ' :: (k1 ++ '=' :: '"' ::
        (v1 ++ '"' :: ' ' :: (k2 ++ '=' :: '"' :: (v2 ++ '"' :: '/' :: '>' :: r))))) =
        k1 ++ '=' :: '"' ::
          (v1 ++ '"' :: ' ' :: (k2 ++ '=' :: '"' :: (v2 ++ '"' :: '/' :: '>' :: r))) := by
      have hsp : isWhitespaceChar ' ' = true := rfl
      rw [ws_cons_true hsp]
      exact ws_alpha hk1 hka1 _
    have ha1 : attributeP (k1 ++ '=' :: '"' ::
        (v1 ++ '"' :: ' ' :: (k2 ++ '=' :: '"' :: (v2 ++ '"' :: '/' :: '>' :: r)))) =
        .ok (k2 ++ '=' :: '"' :: (v2 ++ '"' :: '/' :: '>' :: r)) (lowerStr k1, v1) := by
      have hb := attributeP_block k1 v1
        (' ' :: (k2 ++ '=' :: '"' :: (v2 ++ '"' :: '/' :: '>' :: r))) hk1 hka1 hv1
      rw [show ws (' ' :: (k2 ++ '=' :: '"' :: (v2 ++ '"' :: '/' :: '>' :: r))) =
          k2 ++ '=' :: '"' :: (v2 ++ '"' :: '/' :: '>' :: r) from by
        have hsp : isWhitespaceChar ' ' = true := rfl
        rw [ws_cons_true hsp]
        exact ws_alpha hk2 hka2 _] at hb
      exact hb
    have ha2 : attributeP (k2 ++ '=' :: '"' :: (v2 ++ '"' :: ('/' :: '>' :: r))) =
        .ok ('/' :: '>' :: r) (lowerStr k2, v2) := by
      have hb := attributeP_block k2 v2 ('/' :: '>' :: r) hk2 hka2 hv2
      rw [show ws ('/' :: '>' :: r) = '/' :: '>' :: r from ws_cons rfl] at hb
      exact hb
    have ha3 : attributeP ('/' :: '>' :: r) = .err .soft :=
      attributeP_head_fail (ws_cons rfl) rfl
    have hm : many0_attr (fuel + 3) (k1 ++ '=' :: '"' ::
        (v1 ++ '"' :: ' ' :: (k2 ++ '=' :: '"' :: (v2 ++ '"' :: '/' :: '>' :: r)))) =
        .ok ('/' :: '>' :: r) [(lowerStr k1, v1), (lowerStr k2, v2)] :=
      many0_attr_cons_ok ha1 (many0_attr_cons_ok ha2 (many0_attr_stop ha3))
    simp only [elementF, htag, PResult.bind, hid, hdoc, Bool.false_eq_true, if_false,
      hws1, hm, alt, closeNoBody_slash, hdup]
  refine ⟨hdup, helem, ?_⟩
  have hcd := char_data_at_lt n (' ' :: (k1 ++ '=' :: '"' ::
    (v1 ++ '"' :: ' ' :: (k2 ++ '=' :: '"' :: (v2 ++ '"' :: '/' :: '>' :: r))))) hn hna
  simp only [nodeF, alt, helem, char_data_into_node, hcd, PResult.bind]

/-- Counterexample to C1 as stated: on the spec's own duplicate-attribute
example `<a x="1" x="2"/>` the element parse fails with the recoverable
`soft` error (nom `Err::Error`), not the committed `fatal` one, and the
node parser does backtrack into the character-data alternative, succeeding
with an empty `CharData` and the whole input unconsumed. -/
theorem C1_counterexample :
    (Parser.mk []).element "<a x=\"1\" x=\"2\"/>".toList = .err .soft ∧
    (Parser.mk []).node "<a x=\"1\" x=\"2\"/>".toList =
      .ok "<a x=\"1\" x=\"2\"/>".toList (.CharData []) ∧
    PError.soft ≠ PError.fatal :=
  ⟨rfl, rfl, by decide⟩

/-- Witness for C1: tag `a`, colliding keys `x` and `X`, values `1` and
`2`. -/
theorem C1_witness :
    insertAttrs [] [(lowerStr "x".toList, "1".toList), (lowerStr "X".toList, "2".toList)] =
      none ∧
    elementF [] 4
        ('<' :: ("a".toList ++ ' ' :: ("x".toList ++ '=' :: '"' ::
          ("1".toList ++ '"' :: ' ' ::
            ("X".toList ++ '=' :: '"' :: ("2".toList ++ '"' :: '/' :: '>' :: []))))) ) =
      .err .soft ∧
    nodeF [] 5
        ('<' :: ("a".toList ++ ' ' :: ("x".toList ++ '=' :: '"' ::
          ("1".toList ++ '"' :: ' ' ::
            ("X".toList ++ '=' :: '"' :: ("2".toList ++ '"' :: '/' :: '>' :: []))))) ) =
      .ok ('<' :: ("a".toList ++ ' ' :: ("x".toList ++ '=' :: '"' ::
          ("1".toList ++ '"' :: ' ' ::
            ("X".toList ++ '=' :: '"' :: ("2".toList ++ '"' :: '/' :: '>' :: []))))) )
        (.CharData []) :=
  C1_duplicate_attr_soft [] 0 "a".toList "x".toList "X".toList "1".toList "2".toList []
    (by decide) (by decide) (by decide) (by decide) (by decide) (by decide) (by decide)
    (by decide) (by decide)

end Macky

namespace Macky

/-- C10 (amended): the positional accessors on sequences of `Node` and of
`Element` references are total — `nth i` returns `none` exactly when `i` is
out of range, `first` is `nth 0`, `only` returns the single member exactly
when the length is 1, and `last` returns the final member — with one
exception the unamended claim misses: `Vec<&Node>::last` computes
`len - 1` with an unchecked `usize` subtraction, so on the empty sequence
it underflows and panics (under debug assertions; with wrapping release
arithmetic it would return nothing), while `Vec<&Element>::last` guards the
empty sequence explicitly and is total. -/
theorem C10_accessors_total :
    (∀ (v : List Node) (i : Nat), nthNodes v i = .ok (v.get? i)) ∧
    (∀ v : List Node, firstNodes v = .ok (v.get? 0)) ∧
    (∀ v : List Node, onlyNodes v = .ok (if v.length = 1 then v.get? 0 else none)) ∧
    (∀ v : List Node, v ≠ [] → lastNodes v = .ok (v.get? (v.length - 1))) ∧
    lastNodes ([] : List Node) = .aborted ∧
    (∀ (v : List Element) (i : Nat), nthElems v i = .ok (v.get? i)) ∧
    (∀ v : List Element, firstElems v = .ok (v.get? 0)) ∧
    (∀ v : List Element, onlyElems v = .ok (if v.length = 1 then v.get? 0 else none)) ∧
    (∀ v : List Element, lastElems v = .ok (v.get? (v.length - 1))) := by
  have hnthN : ∀ (v : List Node) (i : Nat), nthNodes v i = .ok (v.get? i) := by
    intro v i
    unfold nthNodes vecIndex
    by_cases h : i < v.length
    · rw [if_pos h, dif_pos h, List.get?_eq_get h]
    · rw [if_neg h, List.get?_eq_none.mpr (by omega)]
  have hnthE : ∀ (v : List Element) (i : Nat), nthElems v i = .ok (v.get? i) := by
    intro v i
    unfold nthElems vecIndex
    by_cases h : i < v.length
    · rw [if_pos h, dif_pos h, List.get?_eq_get h]
    · rw [if_neg h, List.get?_eq_none.mpr (by omega)]
  refine ⟨hnthN, fun v => hnthN v 0, ?_, ?_, ?_, hnthE, fun v => hnthE v 0, ?_, ?_⟩
  · intro v
    unfold onlyNodes vecIndex
    by_cases h : v.length = 1
    · rw [if_pos (by simp [h]), dif_pos (by omega), if_pos h, List.get?_eq_get (by omega)]
    · rw [if_neg (by simp [h]), if_neg h]
  · intro v hv
    unfold lastNodes usizeSub
    have hlen : 1 ≤ v.length := by
      cases v with
      | nil => exact absurd rfl hv
      | cons x xs => simp
    rw [if_pos hlen]
    exact hnthN v (v.length - 1)
  · rfl
  · intro v
    unfold onlyElems vecIndex
    by_cases h : v.length = 1
    · rw [if_pos (by simp [h]), dif_pos (by omega), if_pos h, List.get?_eq_get (by omega)]
    · rw [if_neg (by simp [h]), if_neg h]
  · intro v
    unfold lastElems vecIndex
    by_cases h : v.length = 0
    · rw [if_pos (by simp [h]), List.get?_eq_none.mpr (by omega)]
    · rw [if_neg (by simp [h]), dif_pos (by omega), List.get?_eq_get (by omega)]

/-- Counterexample to C10 as stated: `Vec<&Node>::last` on the empty
sequence panics on the `usize` underflow of `len - 1` instead of returning
nothing, while the other accessors on the empty sequence do return
nothing. -/
theorem C10_counterexample :
    lastNodes ([] : List Node) = .aborted ∧
    firstNodes ([] : List Node) = .ok none ∧
    lastElems ([] : List Element) = .ok none :=
  ⟨rfl, rfl, rfl⟩

/-- Witness for C10: the accessor laws evaluated on a one-element `Node`
sequence and index 3. -/
theorem C10_witness :
    nthNodes [.CharData ['x']] 3 = .ok ([Node.CharData ['x']].get? 3) ∧
    lastNodes [.CharData ['x']] = .ok ([Node.CharData ['x']].get? 0) :=
  ⟨C10_accessors_total.1 [.CharData ['x']] 3,
   C10_accessors_total.2.2.2.1 [.CharData ['x']] (by simp)⟩

end Macky

namespace Macky

/-- The accumulator loop of `QuerySupport<Node>::elem_name` computes the
spec's recursive prune-on-match search appended to the accumulator. -/
theorem elemNameNodesGo_spec (target : Str) (v : List Element) (ns : List Node) :
    elemNameNodesGo target v ns = v ++ elemNameNodesSpec target ns := by
  refine elemNameNodesGo.induct target
    (fun v ns => elemNameNodesGo target v ns = v ++ elemNameNodesSpec target ns)
    ?_ ?_ ?_ ?_ v ns
  · intro v
    simp [elemNameNodesGo, elemNameNodesSpec]
  · intro v d xs ih
    simp [elemNameNodesGo, elemNameNodesSpec, ih]
  · intro v n a c xs hcond ih
    simp [elemNameNodesGo, elemNameNodesSpec, hcond, ih]
  · intro v n a c xs hcond ih1 ih2
    rw [List.nil_append] at ih1
    rw [ih1] at ih2
    simp only [elemNameNodesGo, elemNameNodesSpec, hcond, Bool.false_eq_true, if_false,
      ih1, ih2, List.append_assoc]

/-- `QuerySupport<Node>::elem_name` equals the spec search. -/
theorem elemNameNodes_spec (target : Str) (ns : List Node) :
    elemNameNodes target ns = elemNameNodesSpec target ns := by
  unfold elemNameNodes
  rw [elemNameNodesGo_spec]
  rfl

/-- The accumulator loop of `QuerySupport<Element>::elem_name` computes the
spec's search appended to the accumulator. -/
theorem elemNameElemsGo_spec (target : Str) (v : List Element) (es : List Element) :
    elemNameElemsGo target v es = v ++ elemNameElemsSpec target es := by
  induction es generalizing v with
  | nil => simp [elemNameElemsGo, elemNameElemsSpec]
  | cons e xs ih =>
    obtain ⟨n, a, c⟩ := e
    by_cases hcond : eqIgnoreAsciiCase n target = true
    · simp [elemNameElemsGo, elemNameElemsSpec, hcond, ih]
    · rw [Bool.not_eq_true] at hcond
      simp only [elemNameElemsGo, elemNameElemsSpec, hcond, Bool.false_eq_true, if_false,
        ih, elemNameNodes_spec, List.append_assoc]

/-- `QuerySupport<Element>::elem_name` equals the spec search. -/
theorem elemNameElems_spec (target : Str) (es : List Element) :
    elemNameElems target es = elemNameElemsSpec target es := by
  unfold elemNameElems
  rw [elemNameElemsGo_spec]
  rfl

/-- C8: `elem_name(target)` is the depth-first pre-order prune-on-match
search, uniformly from a node sequence and from an element sequence: it
equals the search modelled from the spec's wording; a case-insensitively
matching element is included with its children left unsearched, a
non-matching element contributes the search of its children, character data
contributes nothing; and on a tree where a matching name nests inside a
matching element only the outer element is returned. -/
theorem C8_elem_name_prune (target : Str) :
    (∀ ns : List Node, elemNameNodes target ns = elemNameNodesSpec target ns) ∧
    (∀ es : List Element, elemNameElems target es = elemNameElemsSpec target es) ∧
    (∀ (n : Str) (a : List (Str × Str)) (c : List Node) (xs : List Node),
      eqIgnoreAsciiCase n target = true →
        elemNameNodes target (.Element (.mk n a c) :: xs) =
          .mk n a c :: elemNameNodes target xs) ∧
    (∀ (n : Str) (a : List (Str × Str)) (c : List Node) (xs : List Node),
      eqIgnoreAsciiCase n target = false →
        elemNameNodes target (.Element (.mk n a c) :: xs) =
          elemNameNodes target c ++ elemNameNodes target xs) ∧
    (∀ (d : Str) (xs : List Node),
      elemNameNodes target (.CharData d :: xs) = elemNameNodes target xs) ∧
    elemNameNodes ['b']
        [.Element (.mk ['b'] [] [.Element (.mk ['b'] [] [])])] =
      [.mk ['b'] [] [.Element (.mk ['b'] [] [])]] ∧
    elemNameElems ['b']
        [.mk ['b'] [] [.Element (.mk ['b'] [] [])]] =
      [.mk ['b'] [] [.Element (.mk ['b'] [] [])]] := by
  refine ⟨elemNameNodes_spec target, elemNameElems_spec target, ?_, ?_, ?_, ?_, ?_⟩
  · intro n a c xs hcond
    rw [elemNameNodes_spec, elemNameNodes_spec]
    simp [elemNameNodesSpec, hcond]
  · intro n a c xs hcond
    rw [elemNameNodes_spec, elemNameNodes_spec, elemNameNodes_spec]
    simp [elemNameNodesSpec, hcond]
  · intro d xs
    rw [elemNameNodes_spec, elemNameNodes_spec]
    simp [elemNameNodesSpec]
  · rw [elemNameNodes_spec]
    simp [elemNameNodesSpec, eqIgnoreAsciiCase]
  · rw [elemNameElems_spec]
    simp [elemNameElemsSpec, eqIgnoreAsciiCase]

/-- Witness for C8: the prune equation applied to the nested `b`-in-`b`
element in front of a character-data tail. -/
theorem C8_witness :
    elemNameNodes ['b']
        (.Element (.mk ['b'] [] [.Element (.mk ['b'] [] [])]) :: [.CharData ['t']]) =
      .mk ['b'] [] [.Element (.mk ['b'] [] [])] :: elemNameNodes ['b'] [.CharData ['t']] :=
  (C8_elem_name_prune ['b']).2.2.1 ['b'] [] [.Element (.mk ['b'] [] [])] [.CharData ['t']]
    (by decide)

end Macky

namespace Macky

/-- The fused retain-and-descend pass equals the source's literal two-phase
form: `Vec::retain` with `keepChild`, then the descent loop over the
retained children. -/
theorem strip_whitespace_eq_retain_then_descend (n : Str) (a : List (Str × Str))
    (c : List Node) :
    Element.strip_whitespace (.mk n a c) = .mk n a (descendRetained (c.filter keepChild)) := by
  have h : ∀ l : List Node, stripChildren l = descendRetained (l.filter keepChild) := by
    intro l
    induction l with
    | nil => rfl
    | cons x xs ih =>
      cases x with
      | CharData d =>
        by_cases hk : (trim d).length > 0
        · simp [stripChildren, List.filter, keepChild, hk, descendRetained, ih]
        · simp [stripChildren, List.filter, keepChild, hk, ih]
      | Element e =>
        simp [stripChildren, List.filter, keepChild, descendRetained, ih]
  simp [Element.strip_whitespace, h]

mutual
/-- The mutating strip computes exactly the spec-modelled removal of
empty-after-trim character data, with retained text byte-identical. -/
theorem stripE_spec : (e : Element) →
    Node.Element e.strip_whitespace = removeEmptyTextNode (.Element e)
  | .mk n a c => by
    simp only [Element.strip_whitespace, removeEmptyTextNode, removeEmptyTextElem,
      stripChildren_spec c]
/-- Children version of `stripE_spec`. -/
theorem stripChildren_spec : (c : List Node) →
    stripChildren c = removeEmptyTextChildren c
  | [] => rfl
  | .CharData d :: xs => by
    by_cases hk : (trim d).length > 0
    · have hne : (trim d == []) = false := by
        rw [beq_eq_false_iff_ne]
        intro hc
        rw [hc] at hk
        simp at hk
      simp only [stripChildren, removeEmptyTextChildren, hk, if_true, hne,
        Bool.false_eq_true, if_false, stripChildren_spec xs]
    · have heq : (trim d == []) = true := by
        rw [beq_iff_eq]
        have : (trim d).length = 0 := by omega
        exact List.length_eq_zero.mp this
      simp only [stripChildren, removeEmptyTextChildren, hk, if_false, heq, if_true,
        stripChildren_spec xs]
  | .Element (.mk n a c) :: xs => by
    have he := stripE_spec (.mk n a c)
    simp only [stripChildren, removeEmptyTextChildren, stripChildren_spec xs]
    simp only [Element.strip_whitespace, removeEmptyTextNode] at he ⊢
    injection he with he1
    rw [he1]
end

mutual
/-- The pure strip computes the spec-modelled removal followed by trimming
of every remaining character-data value. -/
theorem stripPure_spec : (node : Node) →
    strip_whitespace node = trimEveryCharData (removeEmptyTextNode node)
  | .CharData d => rfl
  | .Element (.mk n a c) => by
    simp only [strip_whitespace, removeEmptyTextNode, removeEmptyTextElem,
      trimEveryCharData, stripPureChildren_spec c]
/-- Children version of `stripPure_spec`. -/
theorem stripPureChildren_spec : (c : List Node) →
    stripPureChildren c = trimEveryCharDataList (removeEmptyTextChildren c)
  | [] => rfl
  | .CharData d :: xs => by
    by_cases hk : (trim d).length = 0
    · have heq : (trim d == []) = true := by
        rw [beq_iff_eq]
        exact List.length_eq_zero.mp hk
      have hb : ((trim d).length == 0) = true := by
        rw [beq_iff_eq]
        exact hk
      simp only [stripPureChildren, strip_whitespace, hb, if_true, heq,
        removeEmptyTextChildren, stripPureChildren_spec xs]
    · have hne : (trim d == []) = false := by
        rw [beq_eq_false_iff_ne]
        intro hc
        rw [hc] at hk
        simp at hk
      have hb : ((trim d).length == 0) = false := by
        rw [beq_eq_false_iff_ne]
        exact hk
      simp only [stripPureChildren, strip_whitespace, hb, Bool.false_eq_true, if_false,
        hne, removeEmptyTextChildren, trimEveryCharDataList, trimEveryCharData,
        stripPureChildren_spec xs]
  | .Element (.mk n a c) :: xs => by
    simp only [stripPureChildren, strip_whitespace, removeEmptyTextChildren,
      removeEmptyTextElem, trimEveryCharDataList, trimEveryCharData,
      stripPureChildren_spec xs, stripPureChildren_spec c]
end

/-- C9: the mutating whitespace strip removes exactly the `CharData`
children whose trimmed content is empty, recursively at every depth,
keeping retained text byte-identical (it equals the spec-modelled
`removeEmptyTextNode`); the pure strip removes the same children and
additionally trims every retained `CharData` (it equals `removeEmptyTextNode`
followed by `trimEveryCharData`); consequently the pure result is the
mutating result with every remaining `CharData` trimmed; and the two
variants are not interchangeable — on `<a>` with text child `" x "` they
differ. -/
theorem C9_strip_variants :
    (∀ e : Element, Node.Element e.strip_whitespace = removeEmptyTextNode (.Element e)) ∧
    (∀ node : Node, strip_whitespace node = trimEveryCharData (removeEmptyTextNode node)) ∧
    (∀ e : Element,
      strip_whitespace (.Element e) = trimEveryCharData (.Element e.strip_whitespace)) ∧
    strip_whitespace (.Element (.mk ['a'] [] [.CharData [' ', 'x', ' ']])) ≠
      .Element (Element.strip_whitespace (.mk ['a'] [] [.CharData [' ', 'x', ' ']])) := by
  refine ⟨stripE_spec, stripPure_spec, ?_, ?_⟩
  · intro e
    rw [stripPure_spec, stripE_spec]
  · have hL : strip_whitespace (.Element (.mk ['a'] [] [.CharData [' ', 'x', ' ']])) =
        .Element (.mk ['a'] [] [.CharData ['x']]) := rfl
    have hR : Node.Element (Element.strip_whitespace (.mk ['a'] [] [.CharData [' ', 'x', ' ']])) =
        .Element (.mk ['a'] [] [.CharData [' ', 'x', ' ']]) := rfl
    rw [hL, hR]
    intro h
    injection h with h1
    injection h1 with hn ha hc
    injection hc with hh ht
    injection hh with hd
    have := congrArg List.length hd
    simp at this

end Macky

namespace Macky

/-! Inversion helpers for the lowercase invariant. -/

theorem doctypeTail_ok {input r : Str} {e : Element} (h : doctypeTail input = .ok r e) :
    e = .mk "doctype_decl".toList [] [] := by
  unfold doctypeTail at h
  rw [bind_eq_ok] at h
  obtain ⟨i1, m1, h1, h⟩ := h
  split at h
  · cases h
    rfl
  · cases h

theorem closeNoBody_ok_nil {cfg : List Str} {name i r : Str} {v : List Node}
    (h : closeNoBody cfg name i = .ok r v) : v = [] := by
  unfold closeNoBody at h
  split at h
  · rcases ht : tag ['>'] i with _ | _ <;> rw [ht] at h
    · cases h
      rfl
    · rw [bind_eq_ok] at h
      obtain ⟨i2, m2, h2, h⟩ := h
      cases h
      rfl
  · rw [bind_eq_ok] at h
    obtain ⟨i2, m2, h2, h⟩ := h
    cases h
    rfl

theorem attributeP_key_lower {i r : Str} {a : Str × Str} (h : attributeP i = .ok r a) :
    isAsciiLowerStr a.1 = true := by
  unfold attributeP at h
  rw [bind_eq_ok] at h
  obtain ⟨i1, k0, h1, h⟩ := h
  rw [bind_eq_ok] at h
  obtain ⟨i2, m2, h2, h⟩ := h
  rw [bind_eq_ok] at h
  obtain ⟨i3, v0, h3, h⟩ := h
  cases h
  exact isAsciiLowerStr_lowerStr k0

theorem many0_attr_keys : ∀ (fuel : Nat) {i r : Str} {attrs : List (Str × Str)},
    many0_attr fuel i = .ok r attrs → ∀ kv ∈ attrs, isAsciiLowerStr kv.1 = true := by
  intro fuel
  induction fuel with
  | zero =>
    intro i r attrs h
    simp [many0_attr] at h
  | succ fuel ih =>
    intro i r attrs h
    unfold many0_attr at h
    rcases ha : attributeP i with ⟨i1, a⟩ | e
    · simp only [ha] at h
      split at h
      · cases h
      · rcases hm : many0_attr fuel i1 with ⟨i2, rest⟩ | e2
        · simp only [hm] at h
          cases h
          intro kv hkv
          rcases List.mem_cons.mp hkv with rfl | hkv2
          · exact attributeP_key_lower ha
          · exact ih hm kv hkv2
        · simp only [hm] at h
          cases h
    · cases e <;> simp only [ha] at h
      · cases h
        intro kv hkv
        cases hkv
      · cases h
      · cases h
      · cases h

theorem insertAttrs_keys (P : Str → Prop) :
    ∀ (attrs map0 : List (Str × Str)) {m : List (Str × Str)},
      (∀ kv ∈ map0, P kv.1) → (∀ kv ∈ attrs, P kv.1) →
      insertAttrs map0 attrs = some m → ∀ kv ∈ m, P kv.1 := by
  intro attrs
  induction attrs with
  | nil =>
    intro map0 m h0 ha h
    unfold insertAttrs at h
    cases h
    exact h0
  | cons kv0 rest ih =>
    intro map0 m h0 ha h
    obtain ⟨k, v⟩ := kv0
    unfold insertAttrs at h
    split at h
    · cases h
    · refine ih (map0 ++ [(k, v)]) ?_ (fun kv hkv => ha kv (by simp [hkv])) h
      intro kv hkv
      rcases List.mem_append.mp hkv with hkv1 | hkv2
      · exact h0 kv hkv1
      · rw [List.mem_singleton] at hkv2
        subst hkv2
        exact ha (k, v) (by simp)

theorem char_data_into_node_ok {i r : Str} {nd : Node}
    (h : char_data_into_node i = .ok r nd) : ∃ d, nd = .CharData d := by
  unfold char_data_into_node at h
  rw [bind_eq_ok] at h
  obtain ⟨i1, d, h1, h⟩ := h
  cases h
  exact ⟨d, rfl⟩

end Macky

namespace Macky

/-- Mutual fuel induction behind C4: every success of the element, node or
many-till parser yields a tree whose element names and attribute keys are
all free of ASCII uppercase. -/
theorem parser_lower_invariant : ∀ fuel : Nat,
    (∀ cfg input r e, elementF cfg fuel input = .ok r e → lowerElemB e = true) ∧
    (∀ cfg input r nd, nodeF cfg fuel input = .ok r nd → lowerNodeB nd = true) ∧
    (∀ cfg input r ns, nodesTillF cfg fuel input = .ok r ns → lowerNodesB ns = true) := by
  intro fuel
  induction fuel with
  | zero =>
    refine ⟨?_, ?_, ?_⟩ <;> intro cfg input r x h <;> simp [elementF, nodeF, nodesTillF] at h
  | succ fuel ih =>
    obtain ⟨ihE, ihN, ihT⟩ := ih
    refine ⟨?_, ?_, ?_⟩
    · intro cfg input r e h
      simp only [elementF] at h
      rw [bind_eq_ok] at h
      obtain ⟨i1, m1, h1, h⟩ := h
      rw [bind_eq_ok] at h
      obtain ⟨i2, name0, h2, h⟩ := h
      by_cases hdt : (name0 == "!DOCTYPE".toList) = true
      · rw [if_pos hdt] at h
        rw [doctypeTail_ok h]
        decide
      · rw [if_neg hdt] at h
        rw [bind_eq_ok] at h
        obtain ⟨i3, attrs, h3, h⟩ := h
        rw [bind_eq_ok] at h
        obtain ⟨i4, children, h4, h⟩ := h
        rcases hins : insertAttrs [] attrs with _ | m
        · simp only [hins] at h
          cases h
        · simp only [hins] at h
          cases h
          have hkeys : ∀ kv ∈ m, isAsciiLowerStr kv.1 = true := by
            refine insertAttrs_keys (fun k => isAsciiLowerStr k = true) attrs []
              (by intro kv hkv; cases hkv) ?_ hins
            exact many0_attr_keys fuel h3
          have hchildren : lowerNodesB children = true := by
            rcases alt_eq_ok h4 with h' | ⟨_, h'⟩
            · rw [closeNoBody_ok_nil h']
              rfl
            · rw [bind_eq_ok] at h'
              obtain ⟨i5, m5, h5, h'⟩ := h'
              rw [bind_eq_ok] at h'
              obtain ⟨i6, children2, h6, h'⟩ := h'
              rw [bind_eq_ok] at h'
              obtain ⟨i7, res, h7, h'⟩ := h'
              split at h'
              · rw [bind_eq_ok] at h'
                obtain ⟨i8, m8, h8, h'⟩ := h'
                cases h'
                exact ihT cfg (ws i5) i6 _ h6
              · cases h'
          simp only [lowerElemB, Bool.and_eq_true]
          refine ⟨⟨isAsciiLowerStr_lowerStr name0, ?_⟩, hchildren⟩
          rw [List.all_eq_true]
          intro kv hkv
          exact hkeys kv hkv
    · intro cfg input r nd h
      simp only [nodeF] at h
      rcases alt_eq_ok h with h' | ⟨_, h'⟩
      · rcases he : elementF cfg fuel input with ⟨re, el⟩ | e2 <;> simp only [he] at h'
        · cases h'
          exact ihE cfg input _ _ he
        · cases h'
      · obtain ⟨d, hd⟩ := char_data_into_node_ok h'
        rw [hd]
        rfl
    · intro cfg input r ns h
      simp only [nodesTillF] at h
      rcases ht : tag ['<', '/'] input with ⟨i1, m1⟩ | e1 <;> simp only [ht] at h
      · cases h
        rfl
      · cases e1 <;> simp only [] at h
        · rcases hn : nodeF cfg fuel input with ⟨i2, nd⟩ | e2 <;> simp only [hn] at h
          · split at h
            · cases h
            · rcases hm : nodesTillF cfg fuel i2 with ⟨i3, rest⟩ | e3 <;> simp only [hm] at h
              · cases h
                simp only [lowerNodesB, Bool.and_eq_true]
                exact ⟨ihN cfg input i2 _ hn, ihT cfg i2 _ _ hm⟩
              · cases h
          · cases e2 <;> cases h
        · cases h
        · cases h
        · cases h

end Macky

namespace Macky

/-- C4: whenever the element parse succeeds, every element name and every
attribute key stored anywhere in the resulting tree is free of ASCII
uppercase letters (they were ASCII-lower-cased no matter the input's case);
the doctype special case always produces the fixed sentinel element
`doctype_decl` with no attributes and no children, which itself satisfies
the lowercase invariant. -/
theorem C4_names_lowercase :
    (∀ cfg fuel input r e, elementF cfg fuel input = .ok r e → lowerElemB e = true) ∧
    (∀ input r e, doctypeTail input = .ok r e → e = .mk "doctype_decl".toList [] []) ∧
    lowerElemB (.mk "doctype_decl".toList [] []) = true :=
  ⟨fun cfg fuel => (parser_lower_invariant fuel).1 cfg,
   fun _ _ _ h => doctypeTail_ok h,
   by decide⟩

/-- Witness for C4: the mixed-case input `<A B="1"></a>` parses and its
tree satisfies the lowercase predicate. -/
theorem C4_witness : lowerElemB (.mk ['a'] [(['b'], ['1'])] []) = true :=
  C4_names_lowercase.1 [] 14 "<A B=\"1\"></a>".toList [] (.mk ['a'] [(['b'], ['1'])] [])
    (by rfl)

end Macky
